import Mathlib

/-!
Shallow embedding of the RPM header codec from src/rpm/headers/header.rs.

Byte strings are lists of naturals (well-formed bytes are < 256); Rust machine
integers are modelled as Nat/Int with explicit wrapping (mod 2^w); fallible
code returns Except/PResult, where PResult additionally models Rust panics
(out-of-bounds slicing).
-/

/-- Byte strings: lists of naturals (a well-formed byte is < 256). -/
abbrev Bytes := List Nat

/-- Rust i32 two's-complement wrapping of an integer. -/
def i32wrap (z : Int) : Int := (z + 2 ^ 31) % 2 ^ 32 - 2 ^ 31

/-- Rust `as u32` cast of a natural. -/
def u32wrap (n : Nat) : Nat := n % 2 ^ 32

/-- `u32::to_be_bytes` (of `n mod 2^32`). -/
def beBytes32 (n : Nat) : Bytes :=
  [n / 2 ^ 24 % 256, n / 2 ^ 16 % 256, n / 2 ^ 8 % 256, n % 256]

/-- `u64::to_be_bytes` (of `n mod 2^64`). -/
def beBytes64 (n : Nat) : Bytes :=
  [n / 2 ^ 56 % 256, n / 2 ^ 48 % 256, n / 2 ^ 40 % 256, n / 2 ^ 32 % 256,
   n / 2 ^ 24 % 256, n / 2 ^ 16 % 256, n / 2 ^ 8 % 256, n % 256]

/-- `i8::to_be_bytes`: the single two's-complement byte. -/
def i8beBytes (z : Int) : Bytes := [(z % 2 ^ 8).toNat]

/-- `i16::to_be_bytes`. -/
def i16beBytes (z : Int) : Bytes := [(z % 2 ^ 16).toNat / 256 % 256, (z % 2 ^ 16).toNat % 256]

/-- `i32::to_be_bytes`. -/
def i32beBytes (z : Int) : Bytes := beBytes32 (z % 2 ^ 32).toNat

/-- `i64::to_be_bytes`. -/
def i64beBytes (z : Int) : Bytes := beBytes64 (z % 2 ^ 64).toNat

/-- The error enumeration. Modelled from the spec: crate::errors is not part of
the given sources; the spec lists these variants and their payloads in section 7. -/
inductive RPMError where
  | Io
  | InvalidMagic (expected actual : Nat) (complete_input : Bytes)
  | UnsupportedHeaderVersion (v : Nat)
  | InvalidTag (raw_tag : Nat) (store_type : String)
  | InvalidTagDataType (raw_data_type : Nat) (store_type : String)
  | TagNotFound (tag : String)
  | UnexpectedTagDataType (expected_data_type actual_data_type tag : String)
  | InvalidTagIndex (tag : String) (index : Nat) (bound : Nat)
  | Nom
deriving DecidableEq

/-- Result of Rust code that can return `Ok`, return `Err(RPMError)`, or panic
(index out of bounds). -/
inductive PResult (α : Type) where
  | ok (a : α)
  | err (e : RPMError)
  | panic
deriving DecidableEq

/-- Decidable equality for Except results, used to evaluate concrete runs. -/
instance {e a : Type} [DecidableEq e] [DecidableEq a] : DecidableEq (Except e a) := fun x y =>
  match x, y with
  | .ok v, .ok w => if h : v = w then .isTrue (by rw [h]) else .isFalse (by simp [h])
  | .error v, .error w => if h : v = w then .isTrue (by rw [h]) else .isFalse (by simp [h])
  | .ok _, .error _ => .isFalse (by simp)
  | .error _, .ok _ => .isFalse (by simp)

instance : Monad PResult where
  pure := .ok
  bind m f := match m with
    | .ok a => f a
    | .err e => .err e
    | .panic => .panic

/-- The ten RPM value flavors (enum IndexData). Rust `String`s are modelled as
their UTF-8 byte contents; `Vec<iN>` as lists of integers. -/
inductive IndexData where
  | Null
  | Char (d : List Nat)
  | Int8 (d : List Int)
  | Int16 (d : List Int)
  | Int32 (d : List Int)
  | Int64 (d : List Int)
  | StringTag (s : Bytes)
  | Bin (d : List Nat)
  | StringArray (ss : List Bytes)
  | I18NString (ss : List Bytes)
deriving DecidableEq

/-- The Display impl for IndexData. -/
def IndexData.toDisplay : IndexData → String
  | .Null => "Null"
  | .Bin _ => "Bin"
  | .Char _ => "Char"
  | .I18NString _ => "I18NString"
  | .StringTag _ => "String"
  | .StringArray _ => "StringArray"
  | .Int8 _ => "i8"
  | .Int16 _ => "i16"
  | .Int32 _ => "i32"
  | .Int64 _ => "i64"

/-- IndexData::from_u32: the empty skeleton variant for a wire type code. -/
def IndexData.from_u32 : Nat → Option IndexData
  | 0 => some .Null
  | 1 => some (.Char [])
  | 2 => some (.Int8 [])
  | 3 => some (.Int16 [])
  | 4 => some (.Int32 [])
  | 5 => some (.Int64 [])
  | 6 => some (.StringTag [])
  | 7 => some (.Bin [])
  | 8 => some (.StringArray [])
  | 9 => some (.I18NString [])
  | _ => none

/-- IndexData::to_u32. -/
def IndexData.to_u32 : IndexData → Nat
  | .Null => 0
  | .Char _ => 1
  | .Int8 _ => 2
  | .Int16 _ => 3
  | .Int32 _ => 4
  | .Int64 _ => 5
  | .StringTag _ => 6
  | .Bin _ => 7
  | .StringArray _ => 8
  | .I18NString _ => 9

/-- IndexData::num_items (`len() as u32` on the vectors). -/
def IndexData.num_items : IndexData → Nat
  | .Null => 0
  | .Bin items => u32wrap items.length
  | .Char items => u32wrap items.length
  | .I18NString items => u32wrap items.length
  | .StringTag _ => 1
  | .StringArray items => u32wrap items.length
  | .Int8 items => u32wrap items.length
  | .Int16 items => u32wrap items.length
  | .Int32 items => u32wrap items.length
  | .Int64 items => u32wrap items.length

/-- The alignment padding IndexData::append inserts before the datum, as a
function of the current store length (closed form of the push loops). -/
def padCount (d : IndexData) (len : Nat) : Nat :=
  match d with
  | .Int16 _ => if len % 2 ≠ 0 then 1 else 0
  | .Int32 _ => (4 - len % 4) % 4
  | .Int64 _ => (8 - len % 8) % 8
  | _ => 0

/-- The encoded bytes of the datum itself (what append pushes after padding). -/
def IndexData.enc : IndexData → Bytes
  | .Null => []
  | .Char d => d
  | .Int8 d => (d.map i8beBytes).flatten
  | .Int16 d => (d.map i16beBytes).flatten
  | .Int32 d => (d.map i32beBytes).flatten
  | .Int64 d => (d.map i64beBytes).flatten
  | .StringTag s => s ++ [0]
  | .Bin d => d
  | .StringArray ss => (ss.map (fun s => s ++ [0])).flatten
  | .I18NString ss => (ss.map (fun s => s ++ [0])).flatten

/-- IndexData::append: pushes alignment padding and then the encoded datum onto
the store; returns (new store, number of padding bytes prepended). -/
def IndexData.append (d : IndexData) (store : Bytes) : Bytes × Nat :=
  (store ++ List.replicate (padCount d store.length) 0 ++ d.enc, padCount d store.length)

/-- IndexData::as_str. -/
def IndexData.as_str : IndexData → Option Bytes
  | .StringTag s => some s
  | _ => none

/-- IndexData::as_i32 (first element of a nonempty Int32 vector). -/
def IndexData.as_i32 : IndexData → Option Int
  | .Int32 s => if s ≠ [] then s.head? else none
  | _ => none

/-- IndexData::as_i32_array. -/
def IndexData.as_i32_array : IndexData → Option (List Int)
  | .Int32 s => some s
  | _ => none

/-- IndexData::as_i64 (first element of a nonempty Int64 vector). -/
def IndexData.as_i64 : IndexData → Option Int
  | .Int64 s => if s ≠ [] then s.head? else none
  | _ => none

/-- IndexData::as_string_array (also accepts I18NString, as in the source). -/
def IndexData.as_string_array : IndexData → Option (List Bytes)
  | .StringArray d => some d
  | .I18NString d => some d
  | _ => none

/-- IndexData::as_binary. -/
def IndexData.as_binary : IndexData → Option Bytes
  | .Bin d => some d
  | _ => none

/-- The capabilities of a tag enumeration T (num::FromPrimitive/ToPrimitive +
Display + TypeName), with the laws a derived Rust enum satisfies. -/
structure TagSpec (T : Type) where
  toU32 : T → Nat
  fromU32 : Nat → Option T
  display : T → String
  typeName : String
  toU32_lt : ∀ t, toU32 t < 2 ^ 32
  from_to : ∀ t, fromU32 (toU32 t) = some t
  to_from : ∀ n t, fromU32 n = some t → toU32 t = n

/-- struct IndexEntry<T>. -/
structure IndexEntry (T : Type) where
  tag : T
  data : IndexData
  offset : Int
  num_items : Nat
deriving DecidableEq

/-- IndexEntry::new (num_items is taken from the data). -/
def IndexEntry.new {T : Type} (tag : T) (offset : Int) (data : IndexData) : IndexEntry T :=
  { tag, offset, data, num_items := data.num_items }

/-- nom's complete::take. -/
def nomTake (n : Nat) (b : Bytes) : Except RPMError (Bytes × Bytes) :=
  if n ≤ b.length then .ok (b.take n, b.drop n) else .error .Nom

/-- nom's be_u8. -/
def nomBeU8 (b : Bytes) : Except RPMError (Nat × Bytes) :=
  match b with
  | x :: r => .ok (x, r)
  | _ => .error .Nom

/-- nom's be_u32. -/
def nomBeU32 (b : Bytes) : Except RPMError (Nat × Bytes) :=
  match b with
  | x0 :: x1 :: x2 :: x3 :: r => .ok (((x0 * 256 + x1) * 256 + x2) * 256 + x3, r)
  | _ => .error .Nom

/-- nom's be_i8. -/
def nomBeI8 (b : Bytes) : Except RPMError (Int × Bytes) :=
  match b with
  | x :: r => .ok (if x < 2 ^ 7 then (x : Int) else (x : Int) - 2 ^ 8, r)
  | _ => .error .Nom

/-- nom's be_i16. -/
def nomBeI16 (b : Bytes) : Except RPMError (Int × Bytes) :=
  match b with
  | x0 :: x1 :: r =>
    .ok (if x0 * 256 + x1 < 2 ^ 15 then ((x0 * 256 + x1 : Nat) : Int)
         else ((x0 * 256 + x1 : Nat) : Int) - 2 ^ 16, r)
  | _ => .error .Nom

/-- nom's be_i32. -/
def nomBeI32 (b : Bytes) : Except RPMError (Int × Bytes) :=
  match b with
  | x0 :: x1 :: x2 :: x3 :: r =>
    .ok (if ((x0 * 256 + x1) * 256 + x2) * 256 + x3 < 2 ^ 31 then
           ((((x0 * 256 + x1) * 256 + x2) * 256 + x3 : Nat) : Int)
         else ((((x0 * 256 + x1) * 256 + x2) * 256 + x3 : Nat) : Int) - 2 ^ 32, r)
  | _ => .error .Nom

/-- nom's be_i64. -/
def nomBeI64 (b : Bytes) : Except RPMError (Int × Bytes) :=
  match b with
  | x0 :: x1 :: x2 :: x3 :: x4 :: x5 :: x6 :: x7 :: r =>
    .ok (if ((((((x0 * 256 + x1) * 256 + x2) * 256 + x3) * 256 + x4) * 256 + x5)
            * 256 + x6) * 256 + x7 < 2 ^ 63 then
           ((((((((x0 * 256 + x1) * 256 + x2) * 256 + x3) * 256 + x4) * 256 + x5)
            * 256 + x6) * 256 + x7 : Nat) : Int)
         else ((((((((x0 * 256 + x1) * 256 + x2) * 256 + x3) * 256 + x4) * 256 + x5)
            * 256 + x6) * 256 + x7 : Nat) : Int) - 2 ^ 64, r)
  | _ => .error .Nom

/-- nom's complete::take_till(item == 0): longest prefix without a NUL, rest
starts at the NUL (or is empty). -/
def takeTill0 : Bytes → Bytes × Bytes
  | [] => ([], [])
  | b :: r =>
    if b = 0 then ([], b :: r)
    else
      let p := takeTill0 r
      (b :: p.1, p.2)

/-- The UTF-8 replacement character U+FFFD, encoded. -/
def replChar : Bytes := [0xEF, 0xBF, 0xBD]

/-- Fuel-driven worker for String::from_utf8_lossy (fuel bounds the number of
decoding steps; one byte at least is consumed per step). -/
def utf8LossyGo : Nat → Bytes → Bytes
  | 0, _ => []
  | _ + 1, [] => []
  | fuel + 1, b :: rest =>
    if b < 0x80 then b :: utf8LossyGo fuel rest
    else if 0xC2 ≤ b ∧ b ≤ 0xDF then
      match rest with
      | c :: r =>
        if 0x80 ≤ c ∧ c ≤ 0xBF then b :: c :: utf8LossyGo fuel r
        else replChar ++ utf8LossyGo fuel rest
      | [] => replChar
    else if 0xE0 ≤ b ∧ b ≤ 0xEF then
      match rest with
      | c :: r =>
        if (b = 0xE0 ∧ 0xA0 ≤ c ∧ c ≤ 0xBF) ∨ (b = 0xED ∧ 0x80 ≤ c ∧ c ≤ 0x9F) ∨
            (b ≠ 0xE0 ∧ b ≠ 0xED ∧ 0x80 ≤ c ∧ c ≤ 0xBF) then
          match r with
          | d :: r2 =>
            if 0x80 ≤ d ∧ d ≤ 0xBF then b :: c :: d :: utf8LossyGo fuel r2
            else replChar ++ utf8LossyGo fuel r
          | [] => replChar
        else replChar ++ utf8LossyGo fuel rest
      | [] => replChar
    else if 0xF0 ≤ b ∧ b ≤ 0xF4 then
      match rest with
      | c :: r =>
        if (b = 0xF0 ∧ 0x90 ≤ c ∧ c ≤ 0xBF) ∨ (b = 0xF4 ∧ 0x80 ≤ c ∧ c ≤ 0x8F) ∨
            (b ≠ 0xF0 ∧ b ≠ 0xF4 ∧ 0x80 ≤ c ∧ c ≤ 0xBF) then
          match r with
          | d :: r2 =>
            if 0x80 ≤ d ∧ d ≤ 0xBF then
              match r2 with
              | e :: r3 =>
                if 0x80 ≤ e ∧ e ≤ 0xBF then b :: c :: d :: e :: utf8LossyGo fuel r3
                else replChar ++ utf8LossyGo fuel r2
              | [] => replChar
            else replChar ++ utf8LossyGo fuel r
          | [] => replChar
        else replChar ++ utf8LossyGo fuel rest
      | [] => replChar
    else replChar ++ utf8LossyGo fuel rest

/-- String::from_utf8_lossy: re-emit well-formed UTF-8 sequences, replace
ill-formed maximal subparts by U+FFFD. On valid UTF-8 this is the identity. -/
def utf8Lossy (b : Bytes) : Bytes := utf8LossyGo b.length b

/-- IndexEntry::parse (the 16-byte directory record). -/
def IndexEntry.parse {T : Type} (ts : TagSpec T) (input : Bytes) :
    Except RPMError (Bytes × IndexEntry T) :=
  match nomBeU32 input with
  | .error e => .error e
  | .ok (raw_tag, input1) =>
    match ts.fromU32 raw_tag with
    | none => .error (.InvalidTag raw_tag ts.typeName)
    | some tag =>
      match nomBeU32 input1 with
      | .error e => .error e
      | .ok (raw_tag_type, input2) =>
        match IndexData.from_u32 raw_tag_type with
        | none => .error (.InvalidTagDataType raw_tag_type ts.typeName)
        | some data =>
          match nomBeI32 input2 with
          | .error e => .error e
          | .ok (offset, input3) =>
            match nomBeU32 input3 with
            | .error e => .error e
            | .ok (num_items, rest) => .ok (rest, { tag, data, offset, num_items })

/-- IndexEntry::write_index (always 16 bytes). -/
def IndexEntry.write_index {T : Type} (ts : TagSpec T) (e : IndexEntry T) : Bytes :=
  beBytes32 (ts.toU32 e.tag) ++ beBytes32 e.data.to_u32 ++ i32beBytes e.offset ++
    beBytes32 e.num_items

/-- HEADER_MAGIC. Modelled from the spec: crate::constants is not part of the
given sources; the spec fixes magic = [0x8E, 0xAD, 0xE8]. -/
def HEADER_MAGIC : Bytes := [0x8E, 0xAD, 0xE8]

/-- struct IndexHeader. -/
structure IndexHeader where
  magic : Bytes
  version : Nat
  num_entries : Nat
  header_size : Nat
deriving DecidableEq

/-- IndexHeader::parse (16 bytes; only magic bytes 0 and 1 are checked). -/
def IndexHeader.parse (input : Bytes) : Except RPMError IndexHeader :=
  match nomTake 3 input with
  | .error e => .error e
  | .ok (magic, rest0) =>
    if HEADER_MAGIC.getD 0 0 ≠ magic.getD 0 0 then
      .error (.InvalidMagic (HEADER_MAGIC.getD 0 0) (magic.getD 0 0) input)
    else if HEADER_MAGIC.getD 1 0 ≠ magic.getD 1 0 then
      .error (.InvalidMagic (HEADER_MAGIC.getD 1 0) (magic.getD 1 0) input)
    else
      match nomBeU8 rest0 with
      | .error e => .error e
      | .ok (version, rest1) =>
        if version ≠ 1 then .error (.UnsupportedHeaderVersion version)
        else
          match nomTake 4 rest1 with
          | .error e => .error e
          | .ok (_, rest2) =>
            match nomBeU32 rest2 with
            | .error e => .error e
            | .ok (num_entries, rest3) =>
              match nomBeU32 rest3 with
              | .error e => .error e
              | .ok (header_size, _) =>
                .ok { magic, version := 1, num_entries, header_size }

/-- IndexHeader::write. -/
def IndexHeader.write (ih : IndexHeader) : Bytes :=
  ih.magic ++ [ih.version % 256] ++ [0, 0, 0, 0] ++ beBytes32 ih.num_entries ++
    beBytes32 ih.header_size

/-- IndexHeader::new. -/
def IndexHeader.new (num_entries header_size : Nat) : IndexHeader :=
  { magic := HEADER_MAGIC, version := 1, num_entries, header_size }

/-- struct Header<T>. -/
structure Header (T : Type) where
  index_header : IndexHeader
  index_entries : List (IndexEntry T)
  store : Bytes
deriving DecidableEq

/-- BufRead::read_exact: take exactly n bytes or fail. -/
def readExact (n : Nat) (b : Bytes) : Option (Bytes × Bytes) :=
  if n ≤ b.length then some (b.take n, b.drop n) else none

/-- parse_entry_data_number: read n items with the given reader. -/
def readN {α : Type} (rd : Bytes → Except RPMError (α × Bytes)) :
    Nat → Bytes → Except RPMError (List α × Bytes)
  | 0, input => .ok ([], input)
  | n + 1, input =>
    match rd input with
    | .error e => .error e
    | .ok (v, r) =>
      match readN rd n r with
      | .error e => .error e
      | .ok (vs, r1) => .ok (v :: vs, r1)

/-- The StringArray arm of the store-filling loop: read n NUL-terminated
strings, stepping past each NUL (`remaining = &rest[1..]` panics if there is
no byte left at all). -/
def readStrings : Nat → Bytes → PResult (List Bytes × Bytes)
  | 0, input => .ok ([], input)
  | n + 1, input =>
    let p := takeTill0 input
    match p.2 with
    | [] => .panic
    | _ :: tl =>
      match readStrings n tl with
      | .ok (ss, r) => .ok (utf8Lossy p.1 :: ss, r)
      | .err e => .err e
      | .panic => .panic

/-- The I18NString arm of the store-filling loop: read n strings but advance
only up to (not past) each terminating NUL. -/
def readI18N : Nat → Bytes → List Bytes
  | 0, _ => []
  | n + 1, input =>
    let p := takeTill0 input
    utf8Lossy p.1 :: readI18N n p.2

/-- The store-filling pass of Header::parse for one entry: slice the store at
the entry's offset (`store[offset as usize..]`, panicking when out of bounds)
and materialize the data for the entry's skeleton variant. -/
def fillData {T : Type} (store : Bytes) (e : IndexEntry T) : PResult (IndexEntry T) :=
  let idx := (e.offset % (2 : Int) ^ 64).toNat
  if store.length < idx then .panic
  else
    let remaining := store.drop idx
    match e.data with
    | .Null => .ok e
    | .Char old =>
      match readN nomBeU8 e.num_items remaining with
      | .error er => .err er
      | .ok (vs, _) => .ok { e with data := .Char (old ++ vs) }
    | .Int8 old =>
      match readN nomBeI8 e.num_items remaining with
      | .error er => .err er
      | .ok (vs, _) => .ok { e with data := .Int8 (old ++ vs) }
    | .Int16 old =>
      match readN nomBeI16 e.num_items remaining with
      | .error er => .err er
      | .ok (vs, _) => .ok { e with data := .Int16 (old ++ vs) }
    | .Int32 old =>
      match readN nomBeI32 e.num_items remaining with
      | .error er => .err er
      | .ok (vs, _) => .ok { e with data := .Int32 (old ++ vs) }
    | .Int64 old =>
      match readN nomBeI64 e.num_items remaining with
      | .error er => .err er
      | .ok (vs, _) => .ok { e with data := .Int64 (old ++ vs) }
    | .StringTag old =>
      .ok { e with data := .StringTag (old ++ utf8Lossy (takeTill0 remaining).1) }
    | .Bin old =>
      match readN nomBeU8 e.num_items remaining with
      | .error er => .err er
      | .ok (vs, _) => .ok { e with data := .Bin (old ++ vs) }
    | .StringArray old =>
      match readStrings e.num_items remaining with
      | .ok (ss, _) => .ok { e with data := .StringArray (old ++ ss) }
      | .err er => .err er
      | .panic => .panic
    | .I18NString old =>
      .ok { e with data := .I18NString (old ++ readI18N e.num_items remaining) }

/-- Fill all entries from the store, in order. -/
def fillAll {T : Type} (store : Bytes) : List (IndexEntry T) → PResult (List (IndexEntry T))
  | [] => .ok []
  | e :: es =>
    match fillData store e with
    | .ok e1 =>
      match fillAll store es with
      | .ok es1 => .ok (e1 :: es1)
      | .err er => .err er
      | .panic => .panic
    | .err er => .err er
    | .panic => .panic

/-- The directory-parsing loop of Header::parse. -/
def parseEntriesLoop {T : Type} (ts : TagSpec T) :
    Nat → Bytes → Except RPMError (List (IndexEntry T) × Bytes)
  | 0, b => .ok ([], b)
  | n + 1, b =>
    match IndexEntry.parse ts b with
    | .error e => .error e
    | .ok (rest, entry) =>
      match parseEntriesLoop ts n rest with
      | .error e => .error e
      | .ok (es, r) => .ok (entry :: es, r)

/-- Header::parse: 16-byte preamble, then `header_size + num_entries * 16`
bytes (u32 arithmetic) holding the directory and the store, then the
store-filling pass. Returns the header and the unconsumed input. -/
def Header.parse {T : Type} (ts : TagSpec T) (input : Bytes) : PResult (Header T × Bytes) :=
  match readExact 16 input with
  | none => .err .Io
  | some (buf16, input1) =>
    match IndexHeader.parse buf16 with
    | .error e => .err e
    | .ok ih =>
      match readExact (u32wrap (ih.header_size + ih.num_entries * 16)) input1 with
      | none => .err .Io
      | some (buf, input2) =>
        match parseEntriesLoop ts ih.num_entries buf with
        | .error e => .err e
        | .ok (entries, storeBytes) =>
          match fillAll storeBytes entries with
          | .ok filled =>
            .ok ({ index_header := ih, index_entries := filled, store := storeBytes }, input2)
          | .err e => .err e
          | .panic => .panic

/-- Header::write: preamble, the 16-byte directory records in order, then the
raw store. -/
def Header.write {T : Type} (ts : TagSpec T) (h : Header T) : Bytes :=
  h.index_header.write ++ (h.index_entries.map (IndexEntry.write_index ts)).flatten ++ h.store

/-- Header::create_region_tag. -/
def Header.create_region_tag {T : Type} (ts : TagSpec T) (tag : T) (records_count : Int)
    (offset : Int) : IndexEntry T :=
  let hie0 := IndexEntry.new tag (i32wrap (i32wrap (records_count + 1) * (-16))) (.Bin [])
  let hie := { hie0 with num_items := 16 }
  IndexEntry.new tag offset (.Bin (IndexEntry.write_index ts hie))

/-- The offset/store-building loop of Header::from_entries. -/
def layoutEntries {T : Type} : Bytes → List (IndexEntry T) → Bytes × List (IndexEntry T)
  | store, [] => (store, [])
  | store, r :: rs =>
    let a := (r.data.append store).2
    let store1 := (r.data.append store).1
    let r1 := { r with offset := i32wrap (i32wrap store.length + a) }
    let p := layoutEntries store1 rs
    (p.1, r1 :: p.2)

/-- Header::from_entries. -/
def Header.from_entries {T : Type} (ts : TagSpec T) (actual_records : List (IndexEntry T))
    (region_tag : T) : Header T :=
  let p := layoutEntries [] actual_records
  let region := Header.create_region_tag ts region_tag (i32wrap actual_records.length)
    (i32wrap p.1.length)
  let store2 := (region.data.append p.1).1
  let all_records := region :: p.2
  { index_header := IndexHeader.new (u32wrap all_records.length) (u32wrap store2.length),
    index_entries := all_records, store := store2 }

/-- Header::parse_signature: parse, then discard `8 - header_size % 8` bytes
when the store size is not a multiple of 8. -/
def Header.parse_signature {T : Type} (ts : TagSpec T) (input : Bytes) :
    PResult (Header T × Bytes) :=
  match Header.parse ts input with
  | .ok (h, rest) =>
    let modulo := h.index_header.header_size % 8
    if modulo > 0 then
      match readExact (8 - modulo) rest with
      | none => .err .Io
      | some (_, rest1) => .ok (h, rest1)
    else .ok (h, rest)
  | .err e => .err e
  | .panic => .panic

/-- Header::write_signature: write, then pad with `8 - header_size % 8` zero
bytes when the store size is not a multiple of 8. -/
def Header.write_signature {T : Type} (ts : TagSpec T) (h : Header T) : Bytes :=
  let modulo := h.index_header.header_size % 8
  Header.write ts h ++ (if modulo > 0 then List.replicate (8 - modulo) 0 else [])

/-- Header::find_entry_or_err. -/
def Header.find_entry_or_err {T : Type} [DecidableEq T] (ts : TagSpec T) (h : Header T)
    (tag : T) : Except RPMError (IndexEntry T) :=
  match h.index_entries.find? (fun e => decide (e.tag = tag)) with
  | some e => .ok e
  | none => .error (.TagNotFound (ts.display tag))

/-- Header::get_entry_string_data. -/
def Header.get_entry_string_data {T : Type} [DecidableEq T] (ts : TagSpec T) (h : Header T)
    (tag : T) : Except RPMError Bytes :=
  match Header.find_entry_or_err ts h tag with
  | .error e => .error e
  | .ok entry =>
    match entry.data.as_str with
    | some v => .ok v
    | none => .error (.UnexpectedTagDataType "string" entry.data.toDisplay (ts.display entry.tag))

/-- Header::get_entry_i32_data. -/
def Header.get_entry_i32_data {T : Type} [DecidableEq T] (ts : TagSpec T) (h : Header T)
    (tag : T) : Except RPMError Int :=
  match Header.find_entry_or_err ts h tag with
  | .error e => .error e
  | .ok entry =>
    match entry.data.as_i32 with
    | some v => .ok v
    | none => .error (.UnexpectedTagDataType "i32" entry.data.toDisplay (ts.display entry.tag))

/-- Header::get_entry_i32_array_data. -/
def Header.get_entry_i32_array_data {T : Type} [DecidableEq T] (ts : TagSpec T) (h : Header T)
    (tag : T) : Except RPMError (List Int) :=
  match Header.find_entry_or_err ts h tag with
  | .error e => .error e
  | .ok entry =>
    match entry.data.as_i32_array with
    | some v => .ok v
    | none => .error (.UnexpectedTagDataType "i32 array" entry.data.toDisplay
        (ts.display entry.tag))

/-- Header::get_entry_i64_data. -/
def Header.get_entry_i64_data {T : Type} [DecidableEq T] (ts : TagSpec T) (h : Header T)
    (tag : T) : Except RPMError Int :=
  match Header.find_entry_or_err ts h tag with
  | .error e => .error e
  | .ok entry =>
    match entry.data.as_i64 with
    | some v => .ok v
    | none => .error (.UnexpectedTagDataType "i64" entry.data.toDisplay (ts.display entry.tag))

/-- Header::get_entry_string_array_data. -/
def Header.get_entry_string_array_data {T : Type} [DecidableEq T] (ts : TagSpec T)
    (h : Header T) (tag : T) : Except RPMError (List Bytes) :=
  match Header.find_entry_or_err ts h tag with
  | .error e => .error e
  | .ok entry =>
    match entry.data.as_string_array with
    | some v => .ok v
    | none => .error (.UnexpectedTagDataType "string array" entry.data.toDisplay
        (ts.display entry.tag))

/-- Modelled from the spec: the main-header tag enumeration (crate::constants
is not part of the given sources); only the tags the claims need, with their
standard RPM numbers and Display strings. -/
inductive IndexTag where
  | RPMTAG_HEADERIMMUTABLE
  | RPMTAG_NAME
  | RPMTAG_DIRINDEXES
  | RPMTAG_BASENAMES
  | RPMTAG_DIRNAMES
deriving DecidableEq

/-- IndexTag → u32. -/
def IndexTag.toU32 : IndexTag → Nat
  | .RPMTAG_HEADERIMMUTABLE => 63
  | .RPMTAG_NAME => 1000
  | .RPMTAG_DIRINDEXES => 1116
  | .RPMTAG_BASENAMES => 1117
  | .RPMTAG_DIRNAMES => 1118

/-- u32 → IndexTag. -/
def IndexTag.fromU32 (n : Nat) : Option IndexTag :=
  if n = 63 then some .RPMTAG_HEADERIMMUTABLE
  else if n = 1000 then some .RPMTAG_NAME
  else if n = 1116 then some .RPMTAG_DIRINDEXES
  else if n = 1117 then some .RPMTAG_BASENAMES
  else if n = 1118 then some .RPMTAG_DIRNAMES
  else none

/-- Display for IndexTag. -/
def IndexTag.toDisplay : IndexTag → String
  | .RPMTAG_HEADERIMMUTABLE => "RPMTAG_HEADERIMMUTABLE"
  | .RPMTAG_NAME => "RPMTAG_NAME"
  | .RPMTAG_DIRINDEXES => "RPMTAG_DIRINDEXES"
  | .RPMTAG_BASENAMES => "RPMTAG_BASENAMES"
  | .RPMTAG_DIRNAMES => "RPMTAG_DIRNAMES"

/-- The TagSpec instance for IndexTag. -/
def indexTagSpec : TagSpec IndexTag where
  toU32 := IndexTag.toU32
  fromU32 := IndexTag.fromU32
  display := IndexTag.toDisplay
  typeName := "IndexTag"
  toU32_lt := by intro t; cases t <;> decide
  from_to := by intro t; cases t <;> rfl
  to_from := by
    intro n t h
    unfold IndexTag.fromU32 at h
    split_ifs at h <;> simp_all <;> subst h <;> rfl

/-- Modelled from the spec: the signature-header tag enumeration (only the
tags the claims need). -/
inductive SigTag where
  | HEADER_SIGNATURES
  | RPMSIGTAG_SIZE
  | RPMSIGTAG_SHA1
deriving DecidableEq

/-- SigTag → u32. -/
def SigTag.toU32 : SigTag → Nat
  | .HEADER_SIGNATURES => 62
  | .RPMSIGTAG_SIZE => 1000
  | .RPMSIGTAG_SHA1 => 269

/-- u32 → SigTag. -/
def SigTag.fromU32 (n : Nat) : Option SigTag :=
  if n = 62 then some .HEADER_SIGNATURES
  else if n = 1000 then some .RPMSIGTAG_SIZE
  else if n = 269 then some .RPMSIGTAG_SHA1
  else none

/-- Display for SigTag. -/
def SigTag.toDisplay : SigTag → String
  | .HEADER_SIGNATURES => "HEADER_SIGNATURES"
  | .RPMSIGTAG_SIZE => "RPMSIGTAG_SIZE"
  | .RPMSIGTAG_SHA1 => "RPMSIGTAG_SHA1"

/-- The TagSpec instance for SigTag. -/
def sigTagSpec : TagSpec SigTag where
  toU32 := SigTag.toU32
  fromU32 := SigTag.fromU32
  display := SigTag.toDisplay
  typeName := "IndexSignatureTag"
  toU32_lt := by intro t; cases t <;> decide
  from_to := by intro t; cases t <;> rfl
  to_from := by
    intro n t h
    unfold SigTag.fromU32 at h
    split_ifs at h <;> simp_all <;> subst h <;> rfl

/-- Model of Rust `PathBuf::from(dir).flatten(base)` on Unix (47 is the slash). -/
def pathJoin (dir base : Bytes) : Bytes :=
  if base.head? = some 47 then base
  else if dir = [] then base
  else if dir.getLast? = some 47 then dir ++ base
  else dir ++ [47] ++ base

/-- The try_fold of Header::get_file_names. -/
def fileNamesFold (dirs : List Bytes) (n : Nat) :
    List (Bytes × Int) → List Bytes → Except RPMError (List Bytes)
  | [], acc => .ok acc
  | (base, dir_index) :: rest, acc =>
    match dirs.get? ((dir_index % (2 : Int) ^ 64).toNat) with
    | some dir => fileNamesFold dirs n rest (acc ++ [pathJoin dir base])
    | none => .error (.InvalidTagIndex (IndexTag.toDisplay .RPMTAG_DIRINDEXES)
        ((dir_index % (2 : Int) ^ 32).toNat) (u32wrap n))

/-- Header::<IndexTag>::get_file_names. -/
def Header.get_file_names (h : Header IndexTag) : Except RPMError (List Bytes) :=
  match Header.get_entry_string_array_data indexTagSpec h .RPMTAG_BASENAMES with
  | .error e => .error e
  | .ok base =>
    match Header.get_entry_i32_array_data indexTagSpec h .RPMTAG_DIRINDEXES with
    | .error e => .error e
    | .ok biject =>
      match Header.get_entry_string_array_data indexTagSpec h .RPMTAG_DIRNAMES with
      | .error e => .error e
      | .ok dirs => fileNamesFold dirs dirs.length (base.zip biject) []


/-- The empty skeleton of a data variant (what IndexData::from_u32 yields for
the variant's wire code). -/
def emptyVariant : IndexData → IndexData
  | .Null => .Null
  | .Char _ => .Char []
  | .Int8 _ => .Int8 []
  | .Int16 _ => .Int16 []
  | .Int32 _ => .Int32 []
  | .Int64 _ => .Int64 []
  | .StringTag _ => .StringTag []
  | .Bin _ => .Bin []
  | .StringArray _ => .StringArray []
  | .I18NString _ => .I18NString []

/-- An entry as it comes out of the directory pass, before the store fill. -/
def skeletonize {T : Type} (e : IndexEntry T) : IndexEntry T :=
  { e with data := emptyVariant e.data }

/-- A Rust String round-trips through the store: its bytes contain no NUL and
are valid UTF-8 (operationally: lossy decoding is the identity). -/
def strOk (s : Bytes) : Prop := 0 ∉ s ∧ utf8Lossy s = s

/-- Data whose store encoding parses back to itself: machine integers are in
range (guaranteed by Rust's types), byte vectors hold bytes, vector lengths
fit in u32, strings are NUL-free valid UTF-8, and I18NString entries have all
elements after the first empty (the parser does not step past their NULs). -/
def IndexData.wfData : IndexData → Prop
  | .Null => True
  | .Char d => d.length < 2 ^ 32 ∧ ∀ b ∈ d, b < 256
  | .Int8 d => d.length < 2 ^ 32 ∧ ∀ v ∈ d, -(2 ^ 7) ≤ v ∧ v < 2 ^ 7
  | .Int16 d => d.length < 2 ^ 32 ∧ ∀ v ∈ d, -(2 ^ 15) ≤ v ∧ v < 2 ^ 15
  | .Int32 d => d.length < 2 ^ 32 ∧ ∀ v ∈ d, -(2 ^ 31) ≤ v ∧ v < 2 ^ 31
  | .Int64 d => d.length < 2 ^ 32 ∧ ∀ v ∈ d, -(2 ^ 63) ≤ v ∧ v < 2 ^ 63
  | .StringTag s => strOk s
  | .Bin d => d.length < 2 ^ 32 ∧ ∀ b ∈ d, b < 256
  | .StringArray ss => ss.length < 2 ^ 32 ∧ ∀ s ∈ ss, strOk s
  | .I18NString ss =>
      ss.length < 2 ^ 32 ∧ (ss = [] ∨ ∃ s t, ss = s :: t ∧ strOk s ∧ ∀ u ∈ t, u = [])

/-- A well-formed input entry for Header::from_entries: round-trippable data
whose num_items field agrees with the data (as IndexEntry::new sets it). -/
def entryWf {T : Type} (e : IndexEntry T) : Prop :=
  e.data.wfData ∧ e.num_items = e.data.num_items

/-- The invariants Header::parse establishes, and Header::from_entries
establishes for well-formed inputs; they make write-then-parse the identity. -/
structure WfParsed {T : Type} (ts : TagSpec T) (h : Header T) : Prop where
  magic_shape : ∃ m2, h.index_header.magic = [0x8E, 0xAD, m2]
  version_one : h.index_header.version = 1
  num_eq : h.index_header.num_entries = h.index_entries.length
  size_eq : h.index_header.header_size = h.store.length
  size_lt : h.index_header.header_size + h.index_header.num_entries * 16 < 2 ^ 32
  entries_range : ∀ e ∈ h.index_entries,
    -(2 ^ 31) ≤ e.offset ∧ e.offset < 2 ^ 31 ∧ e.num_items < 2 ^ 32
  entries_fill : ∀ e ∈ h.index_entries, fillData h.store (skeletonize e) = .ok e

/-- The header of a successful parse, if any (projection used to state
concrete evaluations). -/
def parsedHeader {T : Type} : PResult (Header T × Bytes) → Option (Header T)
  | .ok (h, _) => some h
  | _ => none

/-- The alignment divisor of a data variant. -/
def padAlign : IndexData → Nat
  | .Int16 _ => 2
  | .Int32 _ => 4
  | .Int64 _ => 8
  | _ => 1

/-! ### Byte-codec lemmas -/

theorem beBytes32_length (n : Nat) : (beBytes32 n).length = 4 := rfl

theorem beBytes32_lt (n : Nat) : ∀ b ∈ beBytes32 n, b < 256 := by
  intro b hb
  simp [beBytes32] at hb
  rcases hb with h | h | h | h <;> omega

theorem beVal32 (n : Nat) :
    ((n / 2 ^ 24 % 256 * 256 + n / 2 ^ 16 % 256) * 256 + n / 2 ^ 8 % 256) * 256 + n % 256
      = n % 2 ^ 32 := by
  omega

theorem nomBeU32_enc (n : Nat) (r : Bytes) :
    nomBeU32 (beBytes32 n ++ r) = .ok (n % 2 ^ 32, r) := by
  simp only [beBytes32, List.cons_append, List.nil_append, nomBeU32]
  rw [beVal32]

theorem nomBeI32_enc (z : Int) (r : Bytes) :
    nomBeI32 (i32beBytes z ++ r) = .ok (i32wrap z, r) := by
  have h0 : (0 : Int) ≤ z % 2 ^ 32 := Int.emod_nonneg z (by norm_num)
  have h1 : z % 2 ^ 32 < 2 ^ 32 := Int.emod_lt_of_pos z (by norm_num)
  have hm : (((z % 2 ^ 32).toNat : Nat) : Int) = z % 2 ^ 32 := Int.toNat_of_nonneg h0
  simp only [i32beBytes, beBytes32, List.cons_append, List.nil_append, nomBeI32, beVal32]
  have hmod : (z % 2 ^ 32).toNat % 2 ^ 32 = (z % 2 ^ 32).toNat := by omega
  rw [hmod]
  congr 1
  congr 1
  unfold i32wrap
  split_ifs with hcase <;> omega

theorem i32wrap_eq_self (z : Int) (h1 : -(2 ^ 31) ≤ z) (h2 : z < 2 ^ 31) : i32wrap z = z := by
  unfold i32wrap
  omega

theorem i32wrap_bounds (z : Int) : -(2 ^ 31) ≤ i32wrap z ∧ i32wrap z < 2 ^ 31 := by
  unfold i32wrap
  have h0 : (0 : Int) ≤ (z + 2 ^ 31) % 2 ^ 32 := Int.emod_nonneg _ (by norm_num)
  have h1 : (z + 2 ^ 31) % 2 ^ 32 < 2 ^ 32 := Int.emod_lt_of_pos _ (by norm_num)
  omega

theorem nomBeU8_enc (x : Nat) (r : Bytes) : nomBeU8 (x :: r) = .ok (x, r) := rfl

theorem nomBeI8_enc (z : Int) (r : Bytes) (h1 : -(2 ^ 7) ≤ z) (h2 : z < 2 ^ 7) :
    nomBeI8 (i8beBytes z ++ r) = .ok (z, r) := by
  have h0 : (0 : Int) ≤ z % 2 ^ 8 := Int.emod_nonneg z (by norm_num)
  have hlt : z % 2 ^ 8 < 2 ^ 8 := Int.emod_lt_of_pos z (by norm_num)
  simp only [i8beBytes, List.cons_append, List.nil_append, nomBeI8]
  congr 1
  congr 1
  split_ifs with hcase <;> omega

theorem nomBeI16_enc (z : Int) (r : Bytes) (h1 : -(2 ^ 15) ≤ z) (h2 : z < 2 ^ 15) :
    nomBeI16 (i16beBytes z ++ r) = .ok (z, r) := by
  have h0 : (0 : Int) ≤ z % 2 ^ 16 := Int.emod_nonneg z (by norm_num)
  have hlt : z % 2 ^ 16 < 2 ^ 16 := Int.emod_lt_of_pos z (by norm_num)
  simp only [i16beBytes, List.cons_append, List.nil_append, nomBeI16]
  congr 1
  congr 1
  have hv : (z % 2 ^ 16).toNat / 256 % 256 * 256 + (z % 2 ^ 16).toNat % 256
      = (z % 2 ^ 16).toNat := by omega
  rw [hv]
  split_ifs with hcase <;> omega

theorem nomBeI32_enc_range (z : Int) (r : Bytes) (h1 : -(2 ^ 31) ≤ z) (h2 : z < 2 ^ 31) :
    nomBeI32 (i32beBytes z ++ r) = .ok (z, r) := by
  rw [nomBeI32_enc, i32wrap_eq_self z h1 h2]

theorem nomBeI64_enc (z : Int) (r : Bytes) (h1 : -(2 ^ 63) ≤ z) (h2 : z < 2 ^ 63) :
    nomBeI64 (i64beBytes z ++ r) = .ok (z, r) := by
  have h0 : (0 : Int) ≤ z % 2 ^ 64 := Int.emod_nonneg z (by norm_num)
  have hlt : z % 2 ^ 64 < 2 ^ 64 := Int.emod_lt_of_pos z (by norm_num)
  simp only [i64beBytes, beBytes64, List.cons_append, List.nil_append, nomBeI64]
  congr 1
  congr 1
  have hv : ((((((z % 2 ^ 64).toNat / 2 ^ 56 % 256 * 256 + (z % 2 ^ 64).toNat / 2 ^ 48 % 256)
      * 256 + (z % 2 ^ 64).toNat / 2 ^ 40 % 256) * 256 + (z % 2 ^ 64).toNat / 2 ^ 32 % 256)
      * 256 + (z % 2 ^ 64).toNat / 2 ^ 24 % 256) * 256 + (z % 2 ^ 64).toNat / 2 ^ 16 % 256)
      * 256 + (z % 2 ^ 64).toNat / 2 ^ 8 % 256 = (z % 2 ^ 64).toNat / 256 := by omega
  have hv2 : (((((((z % 2 ^ 64).toNat / 2 ^ 56 % 256 * 256 + (z % 2 ^ 64).toNat / 2 ^ 48 % 256)
      * 256 + (z % 2 ^ 64).toNat / 2 ^ 40 % 256) * 256 + (z % 2 ^ 64).toNat / 2 ^ 32 % 256)
      * 256 + (z % 2 ^ 64).toNat / 2 ^ 24 % 256) * 256 + (z % 2 ^ 64).toNat / 2 ^ 16 % 256)
      * 256 + (z % 2 ^ 64).toNat / 2 ^ 8 % 256) * 256 + (z % 2 ^ 64).toNat % 256
      = (z % 2 ^ 64).toNat := by
    rw [hv]; omega
  rw [hv2]
  split_ifs with hcase <;> omega

/-! ### take_till lemmas -/

theorem takeTill0_no_nul (s : Bytes) (h : 0 ∉ s) : takeTill0 s = (s, []) := by
  induction s with
  | nil => rfl
  | cons b r ih =>
    simp only [List.mem_cons, not_or] at h
    simp only [takeTill0, if_neg (Ne.symm h.1), ih h.2]

theorem takeTill0_split (s r : Bytes) (h : 0 ∉ s) :
    takeTill0 (s ++ 0 :: r) = (s, 0 :: r) := by
  induction s with
  | nil => rfl
  | cons b t ih =>
    simp only [List.mem_cons, not_or] at h
    simp only [List.cons_append, takeTill0, if_neg (Ne.symm h.1), List.append_eq, ih h.2]

/-! ### Readback lemmas: parsing an encoded datum returns the datum -/

theorem readN_u8 (d : List Nat) (suffix : Bytes) :
    readN nomBeU8 d.length (d ++ suffix) = .ok (d, suffix) := by
  induction d with
  | nil => rfl
  | cons v t ih => simp only [List.length_cons, List.cons_append, readN, nomBeU8, ih]

theorem readN_encGen (rd : Bytes → Except RPMError (Int × Bytes)) (enc : Int → Bytes)
    (P : Int → Prop) (hstep : ∀ v r, P v → rd (enc v ++ r) = .ok (v, r)) (d : List Int)
    (hd : ∀ v ∈ d, P v) (suffix : Bytes) :
    readN rd d.length ((d.map enc).flatten ++ suffix) = .ok (d, suffix) := by
  induction d with
  | nil => rfl
  | cons v t ih =>
    simp only [List.length_cons, List.map_cons, List.flatten_cons, List.append_assoc, readN]
    rw [hstep v _ (hd v (List.mem_cons_self v t))]
    simp only
    rw [ih (fun w hw => hd w (List.mem_cons_of_mem v hw))]

theorem readStrings_enc (ss : List Bytes) (hss : ∀ s ∈ ss, strOk s) (suffix : Bytes) :
    readStrings ss.length ((ss.map (fun s => s ++ [0])).flatten ++ suffix) = .ok (ss, suffix) := by
  induction ss with
  | nil => rfl
  | cons s t ih =>
    have hs := hss s (List.mem_cons_self s t)
    simp only [List.length_cons, List.map_cons, List.flatten_cons, List.append_assoc,
      List.singleton_append, List.cons_append, readStrings]
    rw [takeTill0_split _ _ hs.1]
    simp only [List.nil_append]
    rw [ih (fun w hw => hss w (List.mem_cons_of_mem s hw))]
    rw [hs.2]

theorem readI18N_zeros (m : Nat) (z : Bytes) : readI18N m (0 :: z) = List.replicate m [] := by
  induction m with
  | zero => rfl
  | succ k ih =>
    have ht : takeTill0 (0 :: z) = ([], 0 :: z) := by simp [takeTill0]
    simp only [readI18N, ht, ih, List.replicate_succ]
    rfl

theorem readI18N_enc (ss : List Bytes) (hwf : ss = [] ∨ ∃ s t, ss = s :: t ∧ strOk s ∧
    ∀ u ∈ t, u = []) (suffix : Bytes) :
    readI18N ss.length ((ss.map (fun s => s ++ [0])).flatten ++ suffix) = ss := by
  rcases hwf with h | ⟨s, t, rfl, hs, ht⟩
  · subst h; rfl
  · have hflat : (t.map (fun s => s ++ [0])).flatten = List.replicate t.length 0 := by
      induction t with
      | nil => rfl
      | cons u w ihw =>
        have hu := ht u (List.mem_cons_self u w)
        subst hu
        simp only [List.map_cons, List.flatten_cons, List.nil_append, List.replicate_succ,
          List.length_cons]
        rw [ihw (fun x hx => ht x (List.mem_cons_of_mem _ hx))]
        rfl
    simp only [List.length_cons, List.map_cons, List.flatten_cons, List.append_assoc,
      List.singleton_append, List.cons_append, readI18N, hflat]
    rw [takeTill0_split _ _ hs.1]
    simp only [List.nil_append]
    rw [readI18N_zeros, hs.2]
    congr 1
    exact (List.eq_replicate_length.mpr ht).symm

theorem num_items_eq_length_char (l : List Nat) (h : l.length < 2 ^ 32) :
    (IndexData.Char l).num_items = l.length := by
  simp only [IndexData.num_items, u32wrap]
  omega

theorem fillData_payload {T : Type} (tag : T) (d : IndexData) (store suffix : Bytes) (k : Nat)
    (hwf : d.wfData) (hdrop : store.drop k = d.enc ++ suffix) (hk : k ≤ store.length)
    (hk64 : k < 2 ^ 64) :
    fillData store ({ tag := tag, data := emptyVariant d, offset := (k : Int), num_items := d.num_items } : IndexEntry T)
      = .ok { tag := tag, data := d, offset := (k : Int), num_items := d.num_items } := by
  have hidx : (((k : Int)) % 2 ^ 64).toNat = k := by omega
  cases d with
  | Null =>
    simp only [fillData, emptyVariant, hidx]
    rw [if_neg (by omega)]
  | Char l =>
    obtain ⟨hlen, helts⟩ := hwf
    have hn : (IndexData.Char l).num_items = l.length := by
      simp only [IndexData.num_items, u32wrap]
      omega
    simp only [IndexData.enc] at hdrop
    simp only [fillData, emptyVariant, hidx, hn]
    rw [if_neg (by omega), hdrop, readN_u8]
    simp
  | Int8 l =>
    obtain ⟨hlen, helts⟩ := hwf
    have hn : (IndexData.Int8 l).num_items = l.length := by
      simp only [IndexData.num_items, u32wrap]
      omega
    simp only [IndexData.enc] at hdrop
    simp only [fillData, emptyVariant, hidx, hn]
    rw [if_neg (by omega), hdrop,
      readN_encGen nomBeI8 i8beBytes (fun v => -(2 ^ 7) ≤ v ∧ v < 2 ^ 7)
        (fun v r hv => nomBeI8_enc v r hv.1 hv.2) l helts]
    simp
  | Int16 l =>
    obtain ⟨hlen, helts⟩ := hwf
    have hn : (IndexData.Int16 l).num_items = l.length := by
      simp only [IndexData.num_items, u32wrap]
      omega
    simp only [IndexData.enc] at hdrop
    simp only [fillData, emptyVariant, hidx, hn]
    rw [if_neg (by omega), hdrop,
      readN_encGen nomBeI16 i16beBytes (fun v => -(2 ^ 15) ≤ v ∧ v < 2 ^ 15)
        (fun v r hv => nomBeI16_enc v r hv.1 hv.2) l helts]
    simp
  | Int32 l =>
    obtain ⟨hlen, helts⟩ := hwf
    have hn : (IndexData.Int32 l).num_items = l.length := by
      simp only [IndexData.num_items, u32wrap]
      omega
    simp only [IndexData.enc] at hdrop
    simp only [fillData, emptyVariant, hidx, hn]
    rw [if_neg (by omega), hdrop,
      readN_encGen nomBeI32 i32beBytes (fun v => -(2 ^ 31) ≤ v ∧ v < 2 ^ 31)
        (fun v r hv => nomBeI32_enc_range v r hv.1 hv.2) l helts]
    simp
  | Int64 l =>
    obtain ⟨hlen, helts⟩ := hwf
    have hn : (IndexData.Int64 l).num_items = l.length := by
      simp only [IndexData.num_items, u32wrap]
      omega
    simp only [IndexData.enc] at hdrop
    simp only [fillData, emptyVariant, hidx, hn]
    rw [if_neg (by omega), hdrop,
      readN_encGen nomBeI64 i64beBytes (fun v => -(2 ^ 63) ≤ v ∧ v < 2 ^ 63)
        (fun v r hv => nomBeI64_enc v r hv.1 hv.2) l helts]
    simp
  | StringTag s =>
    obtain ⟨hnul, hlossy⟩ := hwf
    simp only [IndexData.enc, List.append_assoc, List.singleton_append] at hdrop
    simp only [fillData, emptyVariant, hidx]
    rw [if_neg (by omega), hdrop, takeTill0_split _ _ hnul]
    simp only [List.nil_append, hlossy]
  | Bin l =>
    obtain ⟨hlen, helts⟩ := hwf
    have hn : (IndexData.Bin l).num_items = l.length := by
      simp only [IndexData.num_items, u32wrap]
      omega
    simp only [IndexData.enc] at hdrop
    simp only [fillData, emptyVariant, hidx, hn]
    rw [if_neg (by omega), hdrop, readN_u8]
    simp
  | StringArray ss =>
    obtain ⟨hlen, helts⟩ := hwf
    have hn : (IndexData.StringArray ss).num_items = ss.length := by
      simp only [IndexData.num_items, u32wrap]
      omega
    simp only [IndexData.enc] at hdrop
    simp only [fillData, emptyVariant, hidx, hn]
    rw [if_neg (by omega), hdrop, readStrings_enc ss helts]
    simp
  | I18NString ss =>
    obtain ⟨hlen, helts⟩ := hwf
    have hn : (IndexData.I18NString ss).num_items = ss.length := by
      simp only [IndexData.num_items, u32wrap]
      omega
    simp only [IndexData.enc] at hdrop
    simp only [fillData, emptyVariant, hidx, hn]
    rw [if_neg (by omega), hdrop, readI18N_enc ss helts]
    simp

/-! ### Directory record and preamble round trips -/

theorem to_u32_lt (d : IndexData) : d.to_u32 < 2 ^ 32 := by
  cases d <;> simp [IndexData.to_u32]

theorem from_u32_to_u32 (d : IndexData) : IndexData.from_u32 d.to_u32 = some (emptyVariant d) := by
  cases d <;> rfl

theorem write_index_length {T : Type} (ts : TagSpec T) (e : IndexEntry T) :
    (IndexEntry.write_index ts e).length = 16 := by
  simp [IndexEntry.write_index, beBytes32, i32beBytes]

theorem parse_write_index {T : Type} (ts : TagSpec T) (e : IndexEntry T) (r : Bytes)
    (h1 : -(2 ^ 31) ≤ e.offset) (h2 : e.offset < 2 ^ 31) (h3 : e.num_items < 2 ^ 32) :
    IndexEntry.parse ts (IndexEntry.write_index ts e ++ r) = .ok (r, skeletonize e) := by
  simp only [IndexEntry.write_index, List.append_assoc, IndexEntry.parse]
  rw [nomBeU32_enc, Nat.mod_eq_of_lt (ts.toU32_lt e.tag)]
  simp only [ts.from_to]
  rw [nomBeU32_enc, Nat.mod_eq_of_lt (to_u32_lt e.data)]
  simp only [from_u32_to_u32]
  rw [nomBeI32_enc_range e.offset _ h1 h2]
  simp only
  rw [nomBeU32_enc, Nat.mod_eq_of_lt h3]
  simp [skeletonize]

theorem index_header_write_length (ih : IndexHeader) (m2 : Nat)
    (hm : ih.magic = [0x8E, 0xAD, m2]) : ih.write.length = 16 := by
  simp [IndexHeader.write, hm, beBytes32]

theorem parse_write_index_header (ih : IndexHeader) (m2 : Nat)
    (hm : ih.magic = [0x8E, 0xAD, m2]) (hv : ih.version = 1)
    (hn : ih.num_entries < 2 ^ 32) (hs : ih.header_size < 2 ^ 32) :
    IndexHeader.parse ih.write = .ok ih := by
  obtain ⟨magic, version, num_entries, header_size⟩ := ih
  simp only at hm hv hn hs
  subst hm hv
  simp only [IndexHeader.write, List.cons_append, List.nil_append, List.append_assoc]
  simp only [IndexHeader.parse, nomTake]
  rw [if_pos (by simp [beBytes32])]
  simp only [List.take_succ_cons, List.take_zero, List.drop_succ_cons, List.drop_zero]
  rw [if_neg (by simp [HEADER_MAGIC]), if_neg (by simp [HEADER_MAGIC])]
  simp only [nomBeU8]
  rw [if_neg (by simp)]
  simp only [nomTake, List.length_cons, List.take_succ_cons, List.drop_succ_cons]
  rw [if_pos (by simp [beBytes32])]
  simp only [List.take_succ_cons, List.take_zero, List.drop_succ_cons, List.drop_zero]
  rw [nomBeU32_enc, Nat.mod_eq_of_lt hn]
  simp only
  have hb : beBytes32 header_size ++ ([] : Bytes) = beBytes32 header_size := by simp
  rw [show (beBytes32 header_size : Bytes) = beBytes32 header_size ++ ([] : Bytes) by simp,
    nomBeU32_enc, Nat.mod_eq_of_lt hs]

/-! ### Assembling write-then-parse -/

theorem readExact_append (n : Nat) (xs ys : Bytes) (h : xs.length = n) :
    readExact n (xs ++ ys) = some (xs, ys) := by
  subst h
  simp [readExact, List.take_left, List.drop_left]

theorem readExact_all (n : Nat) (b : Bytes) (h : b.length = n) :
    readExact n b = some (b, []) := by
  subst h
  simp [readExact]

theorem dirflat_length {T : Type} (ts : TagSpec T) (es : List (IndexEntry T)) :
    ((es.map (IndexEntry.write_index ts)).flatten).length = 16 * es.length := by
  induction es with
  | nil => rfl
  | cons e t ih =>
    simp only [List.map_cons, List.flatten_cons, List.length_append, ih,
      write_index_length, List.length_cons]
    ring

theorem parseEntriesLoop_write {T : Type} (ts : TagSpec T) (es : List (IndexEntry T))
    (tail : Bytes)
    (h : ∀ e ∈ es, -(2 ^ 31) ≤ e.offset ∧ e.offset < 2 ^ 31 ∧ e.num_items < 2 ^ 32) :
    parseEntriesLoop ts es.length ((es.map (IndexEntry.write_index ts)).flatten ++ tail)
      = .ok (es.map skeletonize, tail) := by
  induction es with
  | nil => rfl
  | cons e t ih =>
    have he := h e (List.mem_cons_self e t)
    simp only [List.length_cons, List.map_cons, List.flatten_cons, List.append_assoc,
      parseEntriesLoop]
    rw [parse_write_index ts e _ he.1 he.2.1 he.2.2]
    simp only
    rw [ih (fun e2 h2 => h e2 (List.mem_cons_of_mem e h2))]

theorem fillAll_pointwise {T : Type} (store : Bytes) (es : List (IndexEntry T))
    (h : ∀ e ∈ es, fillData store (skeletonize e) = .ok e) :
    fillAll store (es.map skeletonize) = .ok es := by
  induction es with
  | nil => rfl
  | cons e t ih =>
    simp only [List.map_cons, fillAll]
    rw [h e (List.mem_cons_self e t)]
    simp only
    rw [ih (fun e2 h2 => h e2 (List.mem_cons_of_mem e h2))]

theorem parse_write_of_wf {T : Type} (ts : TagSpec T) (h : Header T) (hwf : WfParsed ts h) :
    Header.parse ts (Header.write ts h) = .ok (h, []) := by
  obtain ⟨⟨m2, hm⟩, hv, hnum, hsize, hlt, hrange, hfill⟩ := hwf
  have hih16 : h.index_header.write.length = 16 := index_header_write_length _ _ hm
  have hnumlt : h.index_header.num_entries < 2 ^ 32 := by nlinarith [hlt]
  have hsizelt : h.index_header.header_size < 2 ^ 32 := by omega
  unfold Header.write Header.parse
  rw [List.append_assoc, readExact_append 16 _ _ hih16]
  simp only
  rw [parse_write_index_header h.index_header m2 hm hv hnumlt hsizelt]
  simp only
  have hrest : ((h.index_entries.map (IndexEntry.write_index ts)).flatten ++ h.store).length
      = u32wrap (h.index_header.header_size + h.index_header.num_entries * 16) := by
    rw [u32wrap, Nat.mod_eq_of_lt hlt]
    simp only [List.length_append, dirflat_length, hsize, hnum]
    ring
  rw [readExact_all _ _ hrest]
  simp only
  rw [hnum, parseEntriesLoop_write ts h.index_entries h.store hrange]
  simp only
  rw [fillAll_pointwise h.store h.index_entries hfill]

/-! ### Layout of Header::from_entries -/

theorem i32wrap_addl (x y : Int) : i32wrap (i32wrap x + y) = i32wrap (x + y) := by
  unfold i32wrap
  omega

theorem padCount_align (d : IndexData) (len : Nat) :
    (len + padCount d len) % padAlign d = 0 := by
  cases d <;> simp only [padCount, padAlign] <;> (try split_ifs) <;> omega

theorem layout_map {T : Type} (E : List (IndexEntry T)) (s0 : Bytes) :
    (layoutEntries s0 E).2.map (fun e => (e.tag, e.data, e.num_items))
      = E.map (fun e => (e.tag, e.data, e.num_items)) := by
  induction E generalizing s0 with
  | nil => rfl
  | cons e t ih => simp only [layoutEntries, List.map_cons, ih]

theorem layout_store {T : Type} (E : List (IndexEntry T)) (s0 : Bytes) :
    ∃ ext, (layoutEntries s0 E).1 = s0 ++ ext := by
  induction E generalizing s0 with
  | nil => exact ⟨[], by simp [layoutEntries]⟩
  | cons e t ih =>
    obtain ⟨ext, hext⟩ := ih ((e.data.append s0).1)
    refine ⟨List.replicate (padCount e.data s0.length) 0 ++ e.data.enc ++ ext, ?_⟩
    simp only [layoutEntries]
    rw [hext]
    simp [IndexData.append, List.append_assoc]

theorem layout_entries_spec {T : Type} (E : List (IndexEntry T)) (s0 : Bytes) :
    ∀ e1 ∈ (layoutEntries s0 E).2, ∃ m pre suffix,
      e1.offset = i32wrap ((m : Nat) : Int) ∧ m = pre + padCount e1.data pre ∧
      m % padAlign e1.data = 0 ∧
      m + e1.data.enc.length ≤ (layoutEntries s0 E).1.length ∧
      (layoutEntries s0 E).1.drop m = e1.data.enc ++ suffix := by
  induction E generalizing s0 with
  | nil => intro e1 h1; simp [layoutEntries] at h1
  | cons e t ih =>
    intro e1 h1
    simp only [layoutEntries, List.mem_cons] at h1
    rcases h1 with h1 | h1
    · obtain ⟨ext, hext⟩ := layout_store t ((e.data.append s0).1)
      simp only [IndexData.append] at hext
      have hlen : ((layoutEntries (s0 ++ List.replicate (padCount e.data s0.length) 0
          ++ e.data.enc) t).1).length
          = s0.length + padCount e.data s0.length + e.data.enc.length + ext.length := by
        rw [hext]
        simp only [List.length_append, List.append_assoc, List.length_replicate]
        omega
      refine ⟨s0.length + padCount e.data s0.length, s0.length, ext, ?_, ?_, ?_, ?_, ?_⟩
      · rw [h1]
        simp only [IndexData.append]
        rw [i32wrap_addl]
        congr 1
      · rw [h1]
      · rw [h1]
        exact padCount_align e.data s0.length
      · rw [h1]
        simp only [layoutEntries, IndexData.append]
        rw [hlen]
        omega
      · rw [h1]
        simp only [layoutEntries, IndexData.append]
        rw [hext]
        rw [show s0 ++ List.replicate (padCount e.data s0.length) 0 ++ e.data.enc ++ ext
            = (s0 ++ List.replicate (padCount e.data s0.length) 0) ++ (e.data.enc ++ ext) by
          simp [List.append_assoc]]
        rw [show s0.length + padCount e.data s0.length
            = (s0 ++ List.replicate (padCount e.data s0.length) 0).length by
          simp [List.length_append, List.length_replicate]]
        exact List.drop_left _ _
    · obtain ⟨m, pre, suffix, hoff, hpre, halign, hbound, hdrop⟩ :=
        ih ((e.data.append s0).1) e1 h1
      refine ⟨m, pre, suffix, hoff, hpre, halign, ?_, ?_⟩
      · simpa only [layoutEntries, IndexData.append] using hbound
      · simpa only [layoutEntries, IndexData.append] using hdrop

theorem layout_len {T : Type} (E : List (IndexEntry T)) (s0 : Bytes) :
    (layoutEntries s0 E).2.length = E.length := by
  have h := congrArg List.length (layout_map E s0)
  simpa using h

theorem layout_mem {T : Type} (E : List (IndexEntry T)) (s0 : Bytes) :
    ∀ e1 ∈ (layoutEntries s0 E).2, ∃ e ∈ E,
      e1.tag = e.tag ∧ e1.data = e.data ∧ e1.num_items = e.num_items := by
  intro e1 h1
  have hmem : (e1.tag, e1.data, e1.num_items)
      ∈ E.map (fun e => (e.tag, e.data, e.num_items)) := by
    rw [← layout_map E s0]
    exact List.mem_map_of_mem _ h1
  obtain ⟨e, he, heq⟩ := List.mem_map.mp hmem
  refine ⟨e, he, ?_, ?_, ?_⟩ <;> simp_all [Prod.ext_iff]

theorem write_index_bytes_lt {T : Type} (ts : TagSpec T) (e : IndexEntry T) :
    ∀ b ∈ IndexEntry.write_index ts e, b < 256 := by
  intro b hb
  simp only [IndexEntry.write_index, i32beBytes, List.mem_append] at hb
  rcases hb with ((hb | hb) | hb) | hb <;> exact beBytes32_lt _ b hb

theorem fill_of_entry {T : Type} (store suffix : Bytes) (e1 : IndexEntry T) (m : Nat)
    (hoff : e1.offset = (m : Int)) (hni : e1.num_items = e1.data.num_items)
    (hwfd : e1.data.wfData) (hdrop : store.drop m = e1.data.enc ++ suffix)
    (hk : m ≤ store.length) (hk64 : m < 2 ^ 64) :
    fillData store (skeletonize e1) = .ok e1 := by
  obtain ⟨tag, data, offset, num⟩ := e1
  simp only at hoff hni hwfd hdrop
  subst hoff hni
  have h := fillData_payload tag data store suffix m hwfd hdrop hk hk64
  simpa [skeletonize] using h

theorem num_items_lt (d : IndexData) : d.num_items < 2 ^ 32 := by
  cases d <;> simp [IndexData.num_items, u32wrap] <;> omega

theorem from_entries_wf {T : Type} (ts : TagSpec T) (E : List (IndexEntry T)) (R : T)
    (hwf : ∀ e ∈ E, entryWf e)
    (hB : (Header.from_entries ts E R).store.length + (E.length + 1) * 16 < 2 ^ 31) :
    WfParsed ts (Header.from_entries ts E R) := by
  simp only [Header.from_entries, Header.create_region_tag, IndexEntry.new] at hB ⊢
  set p := layoutEntries ([] : Bytes) E with hp
  set buf := IndexEntry.write_index ts
    { tag := R, data := IndexData.Bin [],
      offset := i32wrap (i32wrap ((i32wrap E.length : Int) + 1) * (-16)), num_items := 16 }
    with hbuf
  have hbuf16 : buf.length = 16 := write_index_length _ _
  have hstore2 : ((IndexData.Bin buf).append p.1).1 = p.1 ++ buf := by
    simp [IndexData.append, padCount, IndexData.enc]
  simp only [IndexData.num_items, hstore2] at hB ⊢
  have hs2len : (p.1 ++ buf).length = p.1.length + 16 := by
    simp [List.length_append, hbuf16]
  have hplen : p.2.length = E.length := layout_len E []
  have hp1lt : p.1.length < 2 ^ 31 := by omega
  have hElt : (E.length + 1) * 16 < 2 ^ 31 := by omega
  constructor
  case magic_shape => exact ⟨0xE8, rfl⟩
  case version_one => rfl
  case num_eq =>
    simp only [IndexHeader.new, u32wrap, List.length_cons, hplen]
    omega
  case size_eq =>
    simp only [IndexHeader.new, u32wrap, hs2len]
    omega
  case size_lt =>
    simp only [IndexHeader.new, u32wrap, List.length_cons, hplen, hs2len]
    have h1 : (p.1.length + 16) % 2 ^ 32 = p.1.length + 16 := by omega
    have h2 : (E.length + 1) % 2 ^ 32 = E.length + 1 := by omega
    rw [h1, h2]
    omega
  case entries_range =>
    intro e1 h1
    simp only [List.mem_cons] at h1
    rcases h1 with h1 | h1
    · subst h1
      simp only [IndexData.num_items, u32wrap]
      refine ⟨?_, ?_, by omega⟩
      · rw [i32wrap_eq_self _ (by omega) (by push_cast; omega)]
        push_cast
        omega
      · rw [i32wrap_eq_self _ (by push_cast; omega) (by push_cast; omega)]
        push_cast
        omega
    · obtain ⟨m, pre, suffix, hoff, hpre, halign, hbound, hdrop⟩ :=
        layout_entries_spec E [] e1 h1
      obtain ⟨e, he, htag, hdata, hni⟩ := layout_mem E [] e1 h1
      refine ⟨?_, ?_, ?_⟩
      · rw [hoff]; exact (i32wrap_bounds _).1
      · rw [hoff]; exact (i32wrap_bounds _).2
      · rw [hni, (hwf e he).2]
        exact num_items_lt e.data
  case entries_fill =>
    intro e1 h1
    simp only [List.mem_cons] at h1
    rcases h1 with h1 | h1
    · subst h1
      refine fill_of_entry (p.1 ++ buf) [] _ p.1.length ?_ ?_ ?_ ?_ ?_ ?_
      · simp only
        rw [i32wrap_eq_self _ (by push_cast; omega) (by push_cast; omega)]
      · simp only [IndexData.num_items]
      · refine ⟨?_, ?_⟩
        · simp only [hbuf16]; omega
        · exact write_index_bytes_lt ts _
      · simp only [IndexData.enc, List.append_nil]
        exact List.drop_left _ _
      · omega
      · omega
    · obtain ⟨m, pre, suffix, hoff, hpre, halign, hbound, hdrop⟩ :=
        layout_entries_spec E [] e1 h1
      rw [← hp] at hbound hdrop
      obtain ⟨e, he, htag, hdata, hni⟩ := layout_mem E [] e1 h1
      have hm : m ≤ p.1.length := by omega
      refine fill_of_entry (p.1 ++ buf) (suffix ++ buf) e1 m ?_ ?_ ?_ ?_ ?_ ?_
      · rw [hoff, i32wrap_eq_self _ (by push_cast; omega) (by push_cast; omega)]
      · rw [hni, (hwf e he).2, hdata]
      · rw [hdata]; exact (hwf e he).1
      · rw [List.drop_append_of_le_length hm, hdrop, List.append_assoc]
      · simp only [List.length_append]; omega
      · omega

/-! ### Inversion lemmas for the parsers -/

theorem nomBeU32_inv (b : Bytes) (v : Nat) (r : Bytes) (hb : ∀ x ∈ b, x < 256)
    (h : nomBeU32 b = .ok (v, r)) : v < 2 ^ 32 ∧ b = beBytes32 v ++ r := by
  match b with
  | [] => simp [nomBeU32] at h
  | [x0] => simp [nomBeU32] at h
  | [x0, x1] => simp [nomBeU32] at h
  | [x0, x1, x2] => simp [nomBeU32] at h
  | x0 :: x1 :: x2 :: x3 :: t =>
    simp only [nomBeU32, Except.ok.injEq, Prod.mk.injEq] at h
    obtain ⟨hv, hr⟩ := h
    subst hr
    have h0 : x0 < 256 := hb x0 (by simp)
    have h1 : x1 < 256 := hb x1 (by simp)
    have h2 : x2 < 256 := hb x2 (by simp)
    have h3 : x3 < 256 := hb x3 (by simp)
    constructor
    · omega
    · simp only [beBytes32, List.cons_append, List.nil_append, List.cons.injEq]
      refine ⟨?_, ?_, ?_, ?_, trivial⟩ <;> omega

theorem nomBeI32_inv (b : Bytes) (v : Int) (r : Bytes) (hb : ∀ x ∈ b, x < 256)
    (h : nomBeI32 b = .ok (v, r)) :
    -(2 ^ 31) ≤ v ∧ v < 2 ^ 31 ∧ b = i32beBytes v ++ r := by
  match b with
  | [] => simp [nomBeI32] at h
  | [x0] => simp [nomBeI32] at h
  | [x0, x1] => simp [nomBeI32] at h
  | [x0, x1, x2] => simp [nomBeI32] at h
  | x0 :: x1 :: x2 :: x3 :: t =>
    simp only [nomBeI32, Except.ok.injEq, Prod.mk.injEq] at h
    obtain ⟨hv, hr⟩ := h
    subst hr
    have h0 : x0 < 256 := hb x0 (by simp)
    have h1 : x1 < 256 := hb x1 (by simp)
    have h2 : x2 < 256 := hb x2 (by simp)
    have h3 : x3 < 256 := hb x3 (by simp)
    have hrange : -(2 ^ 31) ≤ v ∧ v < 2 ^ 31 := by
      rw [← hv]
      split_ifs with hc <;> constructor <;> push_cast <;> omega
    refine ⟨hrange.1, hrange.2, ?_⟩
    simp only [i32beBytes, beBytes32, List.cons_append, List.nil_append, List.cons.injEq]
    have hvm : (v % 2 ^ 32).toNat = ((x0 * 256 + x1) * 256 + x2) * 256 + x3 := by
      rw [← hv]
      split_ifs with hc <;> push_cast <;> omega
    rw [hvm]
    refine ⟨?_, ?_, ?_, ?_, trivial⟩ <;> omega

theorem from_u32_inv (n : Nat) (d : IndexData) (h : IndexData.from_u32 n = some d) :
    d.to_u32 = n ∧ emptyVariant d = d := by
  unfold IndexData.from_u32 at h
  split at h <;> simp_all <;> subst h <;> simp [IndexData.to_u32, emptyVariant]

theorem parse_entry_inv {T : Type} (ts : TagSpec T) (input rest : Bytes) (e : IndexEntry T)
    (hb : ∀ x ∈ input, x < 256) (h : IndexEntry.parse ts input = .ok (rest, e)) :
    input = IndexEntry.write_index ts e ++ rest ∧ e.data = emptyVariant e.data ∧
      -(2 ^ 31) ≤ e.offset ∧ e.offset < 2 ^ 31 ∧ e.num_items < 2 ^ 32 := by
  unfold IndexEntry.parse at h
  split at h
  · exact absurd h (by simp)
  case h_2 raw_tag input1 heq1 =>
    split at h
    · exact absurd h (by simp)
    case h_2 tag heq2 =>
      split at h
      · exact absurd h (by simp)
      case h_2 raw_type input2 heq3 =>
        split at h
        · exact absurd h (by simp)
        case h_2 data heq4 =>
          split at h
          · exact absurd h (by simp)
          case h_2 offz input3 heq5 =>
            split at h
            · exact absurd h (by simp)
            case h_2 ni rest2 heq6 =>
              simp only [Except.ok.injEq, Prod.mk.injEq] at h
              obtain ⟨hrest, hentry⟩ := h
              subst hrest
              obtain ⟨hraw1, hb1⟩ := nomBeU32_inv input raw_tag input1 hb heq1
              have hbin1 : ∀ x ∈ input1, x < 256 := by
                intro x hx
                exact hb x (by rw [hb1]; exact List.mem_append_right _ hx)
              obtain ⟨hraw2, hb2⟩ := nomBeU32_inv input1 raw_type input2 hbin1 heq3
              have hbin2 : ∀ x ∈ input2, x < 256 := by
                intro x hx
                exact hbin1 x (by rw [hb2]; exact List.mem_append_right _ hx)
              obtain ⟨hoff1, hoff2, hb3⟩ := nomBeI32_inv input2 offz input3 hbin2 heq5
              have hbin3 : ∀ x ∈ input3, x < 256 := by
                intro x hx
                exact hbin2 x (by rw [hb3]; exact List.mem_append_right _ hx)
              obtain ⟨hni, hb4⟩ := nomBeU32_inv input3 ni rest2 hbin3 heq6
              obtain ⟨hto, hemp⟩ := from_u32_inv raw_type data heq4
              have htag : ts.toU32 tag = raw_tag := ts.to_from raw_tag tag heq2
              subst hentry
              refine ⟨?_, hemp.symm, hoff1, hoff2, hni⟩
              simp only [IndexEntry.write_index]
              rw [htag, hto, hb1, hb2, hb3, hb4]
              simp [List.append_assoc]

theorem parse_entries_loop_inv {T : Type} (ts : TagSpec T) :
    ∀ (n : Nat) (b : Bytes) (es : List (IndexEntry T)) (r : Bytes),
    (∀ x ∈ b, x < 256) → parseEntriesLoop ts n b = .ok (es, r) →
    es.length = n ∧ b = (es.map (IndexEntry.write_index ts)).flatten ++ r ∧
      ∀ e ∈ es, e.data = emptyVariant e.data ∧ -(2 ^ 31) ≤ e.offset ∧ e.offset < 2 ^ 31 ∧
        e.num_items < 2 ^ 32 := by
  intro n
  induction n with
  | zero =>
    intro b es r hb h
    simp only [parseEntriesLoop, Except.ok.injEq, Prod.mk.injEq] at h
    obtain ⟨hes, hr⟩ := h
    subst hes hr
    simp
  | succ k ih =>
    intro b es r hb h
    simp only [parseEntriesLoop] at h
    split at h
    · exact absurd h (by simp)
    case h_2 rest entry heq =>
      split at h
      · exact absurd h (by simp)
      case h_2 es2 r2 heq2 =>
        simp only [Except.ok.injEq, Prod.mk.injEq] at h
        obtain ⟨hes, hr⟩ := h
        subst hes hr
        obtain ⟨hb1, hsk, ho1, ho2, hn1⟩ := parse_entry_inv ts b rest entry hb heq
        have hbrest : ∀ x ∈ rest, x < 256 := by
          intro x hx
          exact hb x (by rw [hb1]; exact List.mem_append_right _ hx)
        obtain ⟨hlen, hbytes, hprops⟩ := ih rest es2 r2 hbrest heq2
        refine ⟨by simp [hlen], ?_, ?_⟩
        · rw [hb1, hbytes]
          simp [List.append_assoc]
        · intro e he
          rcases List.mem_cons.mp he with he | he
          · subst he
            exact ⟨hsk, ho1, ho2, hn1⟩
          · exact hprops e he

theorem fillData_pres {T : Type} (store : Bytes) (e e1 : IndexEntry T)
    (h : fillData store e = .ok e1) :
    e1.tag = e.tag ∧ e1.offset = e.offset ∧ e1.num_items = e.num_items ∧
      e1.data.to_u32 = e.data.to_u32 ∧ (e.data = emptyVariant e.data → skeletonize e1 = e) := by
  obtain ⟨tag, data, off, num⟩ := e
  simp only [fillData] at h
  cases data <;>
    (split at h
     · exact absurd h (by simp)
     · repeat' split at h
       all_goals
         first
           | contradiction
           | (simp only [PResult.ok.injEq] at h
              subst h
              refine ⟨rfl, rfl, rfl, rfl, fun hsk => ?_⟩
              simp only [emptyVariant] at hsk
              first
                | (injection hsk with hold
                   subst hold
                   simp [skeletonize, emptyVariant])
                | simp [skeletonize, emptyVariant]))

theorem fillAll_fix {T : Type} (store : Bytes) :
    ∀ (es es1 : List (IndexEntry T)), fillAll store es = .ok es1 →
      List.Forall₂ (fun e e1 => fillData store e = .ok e1) es es1 := by
  intro es
  induction es with
  | nil =>
    intro es1 h
    simp only [fillAll, PResult.ok.injEq] at h
    subst h
    exact List.Forall₂.nil
  | cons e t ih =>
    intro es1 h
    simp only [fillAll] at h
    split at h
    case h_2 => contradiction
    case h_3 => contradiction
    case h_1 e2 heq =>
      split at h
      case h_2 => contradiction
      case h_3 => contradiction
      case h_1 es2 heq2 =>
        simp only [PResult.ok.injEq] at h
        subst h
        exact List.Forall₂.cons heq (ih es2 heq2)

theorem forall2_mem_right {α β : Type} (R : α → β → Prop) (xs : List α) (ys : List β)
    (h : List.Forall₂ R xs ys) : ∀ y ∈ ys, ∃ x ∈ xs, R x y := by
  induction h with
  | nil => intro y hy; simp at hy
  | cons hR _ ih =>
    intro y hy
    rcases List.mem_cons.mp hy with hy | hy
    · subst hy
      exact ⟨_, List.mem_cons_self _ _, hR⟩
    · obtain ⟨x, hx, hxR⟩ := ih y hy
      exact ⟨x, List.mem_cons_of_mem _ hx, hxR⟩

theorem forall2_map_eq {α β γ : Type} (R : α → β → Prop) (f : α → γ) (g : β → γ)
    (xs : List α) (ys : List β) (h : List.Forall₂ R xs ys)
    (hfg : ∀ x y, R x y → f x = g y) : xs.map f = ys.map g := by
  induction h with
  | nil => rfl
  | cons hR _ ih => simp only [List.map_cons, hfg _ _ hR, ih]

theorem index_header_parse_inv (input : Bytes) (ih : IndexHeader)
    (hb : ∀ x ∈ input, x < 256) (hlen : input.length = 16)
    (h : IndexHeader.parse input = .ok ih) :
    (∃ m2, ih.magic = [0x8E, 0xAD, m2]) ∧ ih.version = 1 ∧
      ih.num_entries < 2 ^ 32 ∧ ih.header_size < 2 ^ 32 ∧
      ∃ res : Bytes, res.length = 4 ∧
        input = ih.magic ++ 1 :: (res ++ beBytes32 ih.num_entries ++
          beBytes32 ih.header_size) := by
  have ht3 : nomTake 3 input = .ok (input.take 3, input.drop 3) := by
    unfold nomTake
    rw [if_pos (by omega)]
  unfold IndexHeader.parse at h
  rw [ht3] at h
  simp only at h
  have htl : (input.take 3).length = 3 := by
    rw [List.length_take]
    omega
  obtain ⟨a, b, m2, htake⟩ := List.length_eq_three.mp htl
  rw [htake] at h
  simp only [HEADER_MAGIC, List.getD_cons_zero, List.getD_cons_succ] at h
  by_cases hmag1 : (142 : Nat) ≠ a
  · rw [if_pos hmag1] at h
    exact absurd h (by simp)
  rw [if_neg hmag1] at h
  by_cases hmag2 : (173 : Nat) ≠ b
  · rw [if_pos hmag2] at h
    exact absurd h (by simp)
  rw [if_neg hmag2] at h
  have ha : a = 0x8E := by omega
  have hbv : b = 0xAD := by omega
  subst ha hbv
  cases hd : input.drop 3 with
  | nil =>
    have := congrArg List.length hd
    simp [List.length_drop] at this
    omega
  | cons v rest1 =>
    rw [hd] at h
    simp only [nomBeU8] at h
    by_cases hv : v ≠ 1
    · rw [if_pos hv] at h
      exact absurd h (by simp)
    rw [if_neg hv] at h
    have hveq : v = 1 := by omega
    subst hveq
    have hr1len : rest1.length = 12 := by
      have := congrArg List.length hd
      simp only [List.length_drop, List.length_cons, hlen] at this
      omega
    have ht4 : nomTake 4 rest1 = .ok (rest1.take 4, rest1.drop 4) := by
      unfold nomTake
      rw [if_pos (by omega)]
    rw [ht4] at h
    simp only at h
    cases hn1 : nomBeU32 (rest1.drop 4) with
    | error e =>
      rw [hn1] at h
      exact absurd h (by simp)
    | ok p1 =>
      obtain ⟨num, r3⟩ := p1
      rw [hn1] at h
      simp only at h
      cases hn2 : nomBeU32 r3 with
      | error e =>
        rw [hn2] at h
        exact absurd h (by simp)
      | ok p2 =>
        obtain ⟨size, r4⟩ := p2
        rw [hn2] at h
        simp only [Except.ok.injEq] at h
        subst h
        have hmemd : ∀ x ∈ rest1.drop 4, x < 256 := by
          intro x hx
          refine hb x ?_
          have hx1 : x ∈ rest1 := List.mem_of_mem_drop hx
          have hx2 : x ∈ input.drop 3 := by
            rw [hd]
            exact List.mem_cons_of_mem _ hx1
          exact List.mem_of_mem_drop hx2
        obtain ⟨hnum_lt, hbytes1⟩ := nomBeU32_inv _ num r3 hmemd hn1
        have hmemr3 : ∀ x ∈ r3, x < 256 := by
          intro x hx
          refine hmemd x ?_
          rw [hbytes1]
          exact List.mem_append_right _ hx
        obtain ⟨hsize_lt, hbytes2⟩ := nomBeU32_inv _ size r4 hmemr3 hn2
        have hr4 : r4 = [] := by
          have l1 := congrArg List.length hbytes1
          have l2 := congrArg List.length hbytes2
          simp only [List.length_append, beBytes32_length, List.length_drop, hr1len] at l1 l2
          have hr40 : r4.length = 0 := by omega
          exact List.length_eq_zero.mp hr40
        subst hr4
        have hrest1 : rest1 = rest1.take 4 ++ rest1.drop 4 := (List.take_append_drop 4 rest1).symm
        have hrest2 : rest1 = rest1.take 4 ++ (beBytes32 num ++ beBytes32 size) := by
          conv_lhs => rw [hrest1]
          rw [hbytes1, hbytes2]
          simp
        have hlen4 : (rest1.take 4).length = 4 := by
          rw [List.length_take]
          omega
        generalize hres : rest1.take 4 = res at hrest2 hlen4
        refine ⟨⟨m2, rfl⟩, rfl, hnum_lt, hsize_lt, res, hlen4, ?_⟩
        have hassemble : input = input.take 3 ++ input.drop 3 := (List.take_append_drop 3 input).symm
        conv_lhs => rw [hassemble]
        rw [htake, hd, hrest2]
        simp [List.append_assoc]

theorem readExact_inv (n : Nat) (b x y : Bytes) (h : readExact n b = some (x, y)) :
    b = x ++ y ∧ x.length = n := by
  unfold readExact at h
  split at h
  · simp only [Option.some.injEq, Prod.mk.injEq] at h
    obtain ⟨hx, hy⟩ := h
    subst hx hy
    exact ⟨(List.take_append_drop n b).symm, by rw [List.length_take]; omega⟩
  · exact absurd h (by simp)

theorem write_index_congr {T : Type} (ts : TagSpec T) (e e1 : IndexEntry T)
    (h1 : e1.tag = e.tag) (h2 : e1.offset = e.offset) (h3 : e1.num_items = e.num_items)
    (h4 : e1.data.to_u32 = e.data.to_u32) :
    IndexEntry.write_index ts e = IndexEntry.write_index ts e1 := by
  simp [IndexEntry.write_index, h1, h2, h3, h4]

theorem parse_inv {T : Type} (ts : TagSpec T) (B : Bytes) (H : Header T) (r : Bytes)
    (hb : ∀ b ∈ B, b < 256) (hp : Header.parse ts B = .ok (H, r)) :
    WfParsed ts H ∧
    ∃ res : Bytes, res.length = 4 ∧
      B = (H.index_header.magic ++ 1 :: (res ++ beBytes32 H.index_header.num_entries ++
          beBytes32 H.index_header.header_size)) ++
        (H.index_entries.map (IndexEntry.write_index ts)).flatten ++ H.store ++ r := by
  unfold Header.parse at hp
  cases hre : readExact 16 B with
  | none =>
    rw [hre] at hp
    exact absurd hp (by simp)
  | some p16 =>
    obtain ⟨buf16, input1⟩ := p16
    rw [hre] at hp
    simp only at hp
    cases hih : IndexHeader.parse buf16 with
    | error e =>
      rw [hih] at hp
      exact absurd hp (by simp)
    | ok ih =>
      rw [hih] at hp
      simp only at hp
      cases hre2 : readExact (u32wrap (ih.header_size + ih.num_entries * 16)) input1 with
      | none =>
        rw [hre2] at hp
        exact absurd hp (by simp)
      | some p2 =>
        obtain ⟨buf, input2⟩ := p2
        rw [hre2] at hp
        simp only at hp
        cases hpe : parseEntriesLoop ts ih.num_entries buf with
        | error e =>
          rw [hpe] at hp
          exact absurd hp (by simp)
        | ok pes =>
          obtain ⟨entries, storeBytes⟩ := pes
          rw [hpe] at hp
          simp only at hp
          cases hfa : fillAll storeBytes entries with
          | err e =>
            rw [hfa] at hp
            exact absurd hp (by simp)
          | panic =>
            rw [hfa] at hp
            exact absurd hp (by simp)
          | ok filled =>
            rw [hfa] at hp
            simp only [PResult.ok.injEq, Prod.mk.injEq] at hp
            obtain ⟨hH, hr2⟩ := hp
            subst hH hr2
            obtain ⟨hB16, hlen16⟩ := readExact_inv _ _ _ _ hre
            have hbbuf16 : ∀ x ∈ buf16, x < 256 := by
              intro x hx
              exact hb x (by rw [hB16]; exact List.mem_append_left _ hx)
            have hbin1 : ∀ x ∈ input1, x < 256 := by
              intro x hx
              exact hb x (by rw [hB16]; exact List.mem_append_right _ hx)
            obtain ⟨hmagic, hver, hnumlt, hsizelt, res, hreslen, hbuf16eq⟩ :=
              index_header_parse_inv buf16 ih hbbuf16 hlen16 hih
            obtain ⟨hB2, hlenbuf⟩ := readExact_inv _ _ _ _ hre2
            have hbbuf : ∀ x ∈ buf, x < 256 := by
              intro x hx
              exact hbin1 x (by rw [hB2]; exact List.mem_append_left _ hx)
            obtain ⟨hentlen, hbufeq, hentprops⟩ :=
              parse_entries_loop_inv ts ih.num_entries buf entries storeBytes hbbuf hpe
            have hforall2 := fillAll_fix storeBytes entries filled hfa
            have hfilledlen : entries.length = filled.length := hforall2.length_eq
            have hdirlen : ((entries.map (IndexEntry.write_index ts)).flatten).length
                = 16 * entries.length := dirflat_length ts entries
            have hstorelen : storeBytes.length = ih.header_size ∧
                ih.header_size + ih.num_entries * 16 < 2 ^ 32 := by
              have hbl := congrArg List.length hbufeq
              simp only [List.length_append, hdirlen, hentlen] at hbl
              rw [hlenbuf] at hbl
              unfold u32wrap at hbl
              constructor
              · omega
              · omega
            have hmapeq : entries.map (IndexEntry.write_index ts)
                = filled.map (IndexEntry.write_index ts) := by
              refine forall2_map_eq _ _ _ _ _ hforall2 ?_
              intro e e1 hfde
              obtain ⟨p1, p2, p3, p4, _⟩ := fillData_pres storeBytes e e1 hfde
              exact write_index_congr ts e e1 p1 p2 p3 p4
            refine ⟨?_, res, hreslen, ?_⟩
            · constructor
              case magic_shape => exact hmagic
              case version_one => exact hver
              case num_eq =>
                simp only
                omega
              case size_eq =>
                simp only
                omega
              case size_lt => exact hstorelen.2
              case entries_range =>
                intro e1 h1
                obtain ⟨e, he, hfde⟩ := forall2_mem_right _ _ _ hforall2 e1 h1
                obtain ⟨p1, p2, p3, p4, p5⟩ := fillData_pres storeBytes e e1 hfde
                obtain ⟨q1, q2, q3, q4⟩ := hentprops e he
                rw [p2, p3]
                exact ⟨q2, q3, q4⟩
              case entries_fill =>
                intro e1 h1
                obtain ⟨e, he, hfde⟩ := forall2_mem_right _ _ _ hforall2 e1 h1
                obtain ⟨p1, p2, p3, p4, p5⟩ := fillData_pres storeBytes e e1 hfde
                obtain ⟨q1, q2, q3, q4⟩ := hentprops e he
                rw [p5 q1]
                exact hfde
            · simp only
              rw [hB16, hB2, hbuf16eq, hbufeq, hmapeq]
              simp [List.append_assoc]

theorem parse_then_write {T : Type} (ts : TagSpec T) (B : Bytes) (H : Header T) (r : Bytes)
    (hb : ∀ b ∈ B, b < 256) (hres : (B.drop 4).take 4 = [0, 0, 0, 0])
    (hp : Header.parse ts B = .ok (H, r)) :
    Header.write ts H ++ r = B := by
  obtain ⟨hwf, res, hreslen, hBeq⟩ := parse_inv ts B H r hb hp
  obtain ⟨m2, hm⟩ := hwf.magic_shape
  have hres4 : res = [0, 0, 0, 0] := by
    rw [hBeq, hm] at hres
    simp only [List.cons_append, List.nil_append, List.drop_succ_cons, List.drop_zero,
      List.append_assoc] at hres
    rw [show (4 : Nat) = res.length from hreslen.symm, List.take_left] at hres
    exact hres
  rw [hBeq, hres4, hm]
  simp only [Header.write, IndexHeader.write, hwf.version_one, hm]
  norm_num

theorem header_write_length {T : Type} (ts : TagSpec T) (H : Header T) (m2 : Nat)
    (hm : H.index_header.magic = [0x8E, 0xAD, m2]) :
    (Header.write ts H).length = 16 + 16 * H.index_entries.length + H.store.length := by
  simp only [Header.write, List.length_append, index_header_write_length H.index_header m2 hm,
    dirflat_length]

theorem signature_roundtrip {T : Type} (ts : TagSpec T) (B : Bytes) (H : Header T)
    (rest : Bytes) (hb : ∀ b ∈ B, b < 256) (hres : (B.drop 4).take 4 = [0, 0, 0, 0])
    (hp : Header.parse ts B = .ok (H, rest)) (hzero : ∀ b ∈ rest, b = 0)
    (hlen8 : B.length % 8 = 0) (hrlt : rest.length < 8) :
    Header.parse_signature ts B = .ok (H, []) ∧ Header.write_signature ts H = B := by
  obtain ⟨hwf, _, _, _⟩ := parse_inv ts B H rest hb hp
  obtain ⟨m2, hm⟩ := hwf.magic_shape
  have hWB : Header.write ts H ++ rest = B := parse_then_write ts B H rest hb hres hp
  have hwl : (Header.write ts H).length = 16 + 16 * H.index_entries.length + H.store.length :=
    header_write_length ts H m2 hm
  have hBl := congrArg List.length hWB
  simp only [List.length_append, hwl] at hBl
  have hsize : H.index_header.header_size = H.store.length := hwf.size_eq
  have hrestlen : rest.length = (8 - H.index_header.header_size % 8) % 8 := by
    rw [hsize]
    omega
  have hrepl : rest = List.replicate rest.length 0 := List.eq_replicate_length.mpr hzero
  constructor
  · unfold Header.parse_signature
    rw [hp]
    simp only
    by_cases hmod : H.index_header.header_size % 8 > 0
    · rw [if_pos hmod]
      have hre : readExact (8 - H.index_header.header_size % 8) rest = some (rest, []) := by
        have hlen : rest.length = 8 - H.index_header.header_size % 8 := by omega
        rw [← hlen]
        exact readExact_all _ _ rfl
      rw [hre]
    · rw [if_neg hmod]
      have : rest.length = 0 := by omega
      rw [List.length_eq_zero.mp this]
  · show Header.write ts H ++ (if H.index_header.header_size % 8 > 0 then
        List.replicate (8 - H.index_header.header_size % 8) 0 else []) = B
    by_cases hmod : H.index_header.header_size % 8 > 0
    · rw [if_pos hmod]
      rw [← hWB]
      congr 1
      rw [hrepl]
      congr 1
      omega
    · rw [if_neg hmod]
      have h0 : rest.length = 0 := by omega
      rw [← hWB, List.length_eq_zero.mp h0]

/-! ### Claim theorems -/

theorem parse16_cases (b0 b1 b2 b3 r0 r1 r2 r3 n0 n1 n2 n3 s0 s1 s2 s3 : Nat) :
    (b0 ≠ 0x8E →
      IndexHeader.parse [b0, b1, b2, b3, r0, r1, r2, r3, n0, n1, n2, n3, s0, s1, s2, s3]
        = .error (.InvalidMagic 0x8E b0
            [b0, b1, b2, b3, r0, r1, r2, r3, n0, n1, n2, n3, s0, s1, s2, s3])) ∧
    (b0 = 0x8E → b1 ≠ 0xAD →
      IndexHeader.parse [b0, b1, b2, b3, r0, r1, r2, r3, n0, n1, n2, n3, s0, s1, s2, s3]
        = .error (.InvalidMagic 0xAD b1
            [b0, b1, b2, b3, r0, r1, r2, r3, n0, n1, n2, n3, s0, s1, s2, s3])) ∧
    (b0 = 0x8E → b1 = 0xAD → b3 ≠ 1 →
      IndexHeader.parse [b0, b1, b2, b3, r0, r1, r2, r3, n0, n1, n2, n3, s0, s1, s2, s3]
        = .error (.UnsupportedHeaderVersion b3)) ∧
    (b0 = 0x8E → b1 = 0xAD → b3 = 1 →
      IndexHeader.parse [b0, b1, b2, b3, r0, r1, r2, r3, n0, n1, n2, n3, s0, s1, s2, s3]
        = .ok { magic := [b0, b1, b2], version := 1,
                num_entries := ((n0 * 256 + n1) * 256 + n2) * 256 + n3,
                header_size := ((s0 * 256 + s1) * 256 + s2) * 256 + s3 }) := by
  refine ⟨?_, ?_, ?_, ?_⟩
  · intro h
    unfold IndexHeader.parse nomTake
    rw [if_pos (by simp)]
    simp only [List.take_succ_cons, List.take_zero, List.drop_succ_cons, List.drop_zero,
      HEADER_MAGIC, List.getD_cons_zero, List.getD_cons_succ]
    rw [if_pos (Ne.symm h)]
  · intro h0 h1
    subst h0
    unfold IndexHeader.parse nomTake
    rw [if_pos (by simp)]
    simp only [List.take_succ_cons, List.take_zero, List.drop_succ_cons, List.drop_zero,
      HEADER_MAGIC, List.getD_cons_zero, List.getD_cons_succ]
    rw [if_neg (by omega), if_pos (Ne.symm h1)]
  · intro h0 h1 h3
    subst h0 h1
    unfold IndexHeader.parse nomTake
    rw [if_pos (by simp)]
    simp only [List.take_succ_cons, List.take_zero, List.drop_succ_cons, List.drop_zero,
      HEADER_MAGIC, List.getD_cons_zero, List.getD_cons_succ]
    rw [if_neg (by omega), if_neg (by omega)]
    simp only [nomBeU8]
    rw [if_pos h3]
  · intro h0 h1 h3
    subst h0 h1 h3
    unfold IndexHeader.parse nomTake
    rw [if_pos (by simp)]
    simp only [List.take_succ_cons, List.take_zero, List.drop_succ_cons, List.drop_zero,
      HEADER_MAGIC, List.getD_cons_zero, List.getD_cons_succ]
    rw [if_neg (by omega), if_neg (by omega)]
    simp only [nomBeU8]
    rw [if_neg (by omega)]
    rw [if_pos (by simp)]
    simp only [List.take_succ_cons, List.take_zero, List.drop_succ_cons, List.drop_zero,
      nomBeU32]

/-- C7: IndexHeader::parse on a 16-byte input fails with InvalidMagic exactly when
byte 0 differs from 0x8E or byte 1 differs from 0xAD, reporting the first
mismatching byte as expected/actual together with the complete input; it fails with
UnsupportedHeaderVersion(v) exactly when the magic bytes match and the version byte
v at offset 3 is not 1; otherwise it succeeds, reading num_entries and header_size
big-endian from bytes 8..12 and 12..16. -/
theorem claim_C7 (b0 b1 b2 b3 r0 r1 r2 r3 n0 n1 n2 n3 s0 s1 s2 s3 : Nat) :
    (b0 ≠ 0x8E →
      IndexHeader.parse [b0, b1, b2, b3, r0, r1, r2, r3, n0, n1, n2, n3, s0, s1, s2, s3]
        = .error (.InvalidMagic 0x8E b0
            [b0, b1, b2, b3, r0, r1, r2, r3, n0, n1, n2, n3, s0, s1, s2, s3])) ∧
    (b0 = 0x8E → b1 ≠ 0xAD →
      IndexHeader.parse [b0, b1, b2, b3, r0, r1, r2, r3, n0, n1, n2, n3, s0, s1, s2, s3]
        = .error (.InvalidMagic 0xAD b1
            [b0, b1, b2, b3, r0, r1, r2, r3, n0, n1, n2, n3, s0, s1, s2, s3])) ∧
    (b0 = 0x8E → b1 = 0xAD → b3 ≠ 1 →
      IndexHeader.parse [b0, b1, b2, b3, r0, r1, r2, r3, n0, n1, n2, n3, s0, s1, s2, s3]
        = .error (.UnsupportedHeaderVersion b3)) ∧
    (b0 = 0x8E → b1 = 0xAD → b3 = 1 →
      IndexHeader.parse [b0, b1, b2, b3, r0, r1, r2, r3, n0, n1, n2, n3, s0, s1, s2, s3]
        = .ok { magic := [b0, b1, b2], version := 1,
                num_entries := ((n0 * 256 + n1) * 256 + n2) * 256 + n3,
                header_size := ((s0 * 256 + s1) * 256 + s2) * 256 + s3 }) :=
  parse16_cases b0 b1 b2 b3 r0 r1 r2 r3 n0 n1 n2 n3 s0 s1 s2 s3

/-- C7 witness: an unsupported-version input and a successful parse at concrete
bytes (version 2 gives UnsupportedHeaderVersion 2; a good preamble with
num_entries bytes 0,0,0,2 and header_size bytes 0,0,1,0 parses to 2 and 256). -/
theorem claim_C7_witness :
    IndexHeader.parse [0x8E, 0xAD, 0xE8, 2, 0, 0, 0, 0, 0, 0, 0, 0, 0, 0, 0, 0]
      = .error (.UnsupportedHeaderVersion 2) ∧
    IndexHeader.parse [0x8E, 0xAD, 0x55, 1, 9, 9, 9, 9, 0, 0, 0, 2, 0, 0, 1, 0]
      = .ok { magic := [0x8E, 0xAD, 0x55], version := 1, num_entries := 2,
              header_size := 256 } := by
  constructor
  · exact (claim_C7 0x8E 0xAD 0xE8 2 0 0 0 0 0 0 0 0 0 0 0 0).2.2.1 rfl rfl (by omega)
  · exact (claim_C7 0x8E 0xAD 0x55 1 9 9 9 9 0 0 0 2 0 0 1 0).2.2.2 rfl rfl rfl

/-- C10: IndexHeader::parse never inspects the third magic byte: any 16-byte input
whose bytes 0 and 1 are 0x8E, 0xAD and whose version byte is 1 parses successfully
regardless of byte 2, the parsed header stores the input's byte 2 in its magic
field, and IndexHeader::write re-emits that stored byte verbatim at position 2. -/
theorem claim_C10 (b2 r0 r1 r2 r3 n0 n1 n2 n3 s0 s1 s2 s3 : Nat) :
    ∃ ih, IndexHeader.parse
        [0x8E, 0xAD, b2, 1, r0, r1, r2, r3, n0, n1, n2, n3, s0, s1, s2, s3] = .ok ih ∧
      ih.magic = [0x8E, 0xAD, b2] ∧ (IndexHeader.write ih).get? 2 = some b2 := by
  obtain ⟨-, -, -, h4⟩ := parse16_cases 0x8E 0xAD b2 1 r0 r1 r2 r3 n0 n1 n2 n3 s0 s1 s2 s3
  refine ⟨_, h4 rfl rfl rfl, rfl, ?_⟩
  simp [IndexHeader.write]

/-- C9: for a header whose entry found for a tag holds an empty Int32 (resp. Int64)
vector, get_entry_i32_data (resp. get_entry_i64_data) does not return a value: it
fails with UnexpectedTagDataType whose expected and actual data types are both
"i32" (resp. "i64"), because as_i32/as_i64 return None on an empty array. -/
theorem claim_C9 {T : Type} [DecidableEq T] (ts : TagSpec T) (h : Header T) (tag : T)
    (e : IndexEntry T) (hfind : Header.find_entry_or_err ts h tag = .ok e) :
    (e.data = IndexData.Int32 [] →
      Header.get_entry_i32_data ts h tag
        = .error (.UnexpectedTagDataType "i32" "i32" (ts.display e.tag))) ∧
    (e.data = IndexData.Int64 [] →
      Header.get_entry_i64_data ts h tag
        = .error (.UnexpectedTagDataType "i64" "i64" (ts.display e.tag))) := by
  constructor
  · intro hdat
    unfold Header.get_entry_i32_data
    rw [hfind]
    simp only [hdat, IndexData.as_i32, IndexData.toDisplay]
    simp
  · intro hdat
    unfold Header.get_entry_i64_data
    rw [hfind]
    simp only [hdat, IndexData.as_i64, IndexData.toDisplay]
    simp

/-- C9 witness: a concrete signature header with an empty Int32 entry for
RPMSIGTAG_SIZE yields UnexpectedTagDataType with both types "i32". -/
theorem claim_C9_witness :
    Header.get_entry_i32_data sigTagSpec
      { index_header := IndexHeader.new 0 0,
        index_entries := [⟨SigTag.RPMSIGTAG_SIZE, IndexData.Int32 [], 0, 0⟩], store := [] }
      SigTag.RPMSIGTAG_SIZE
      = .error (.UnexpectedTagDataType "i32" "i32" "RPMSIGTAG_SIZE") :=
  (claim_C9 sigTagSpec _ SigTag.RPMSIGTAG_SIZE
    ⟨SigTag.RPMSIGTAG_SIZE, IndexData.Int32 [], 0, 0⟩ (by decide)).1 rfl

/-- C5: the I18NString arm of the store fill advances only up to (not past) the
terminating NUL on each element; consequently, for an I18NString entry with
num_items at least 2 whose first element is NUL-terminated in the store, every
decoded element after the first is the empty string. -/
theorem claim_C5 {T : Type} (tag : T) (store s1 rest : Bytes) (k n : Nat)
    (hdrop : store.drop k = s1 ++ 0 :: rest) (hnul : 0 ∉ s1) (hn : 2 ≤ n)
    (hk64 : k < 2 ^ 64) :
    fillData store ({ tag := tag, data := IndexData.I18NString [], offset := (k : Int), num_items := n } : IndexEntry T)
      = .ok { tag := tag, data := IndexData.I18NString (utf8Lossy s1 :: List.replicate (n - 1) []), offset := (k : Int), num_items := n } := by
  have hidx : (((k : Int)) % 2 ^ 64).toNat = k := by omega
  have hk : k < store.length := by
    by_contra hcon
    have : store.drop k = [] := List.drop_eq_nil_of_le (by omega)
    rw [this] at hdrop
    exact absurd hdrop.symm (by simp)
  simp only [fillData, hidx]
  rw [if_neg (by omega), hdrop]
  have hsplit : readI18N n (s1 ++ 0 :: rest) = utf8Lossy s1 :: List.replicate (n - 1) [] := by
    obtain ⟨m, rfl⟩ : ∃ m, n = m + 1 := ⟨n - 1, by omega⟩
    simp only [readI18N, takeTill0_split s1 rest hnul, readI18N_zeros]
    simp
  rw [hsplit]
  simp

/-- C5 witness: filling a 2-item I18NString entry from the store "a\x00" decodes
"a" and then the empty string. -/
theorem claim_C5_witness :
    fillData [97, 0] ({ tag := SigTag.HEADER_SIGNATURES, data := IndexData.I18NString [], offset := (0 : Int), num_items := 2 } : IndexEntry SigTag)
      = .ok { tag := SigTag.HEADER_SIGNATURES, data := IndexData.I18NString [[97], []], offset := (0 : Int), num_items := 2 } := by
  have h := claim_C5 SigTag.HEADER_SIGNATURES [97, 0] [97] [] 0 2 rfl (by decide) (by omega)
    (by norm_num)
  exact h

/-- C2: the first entry of a header built by Header::from_entries from n real
entries is a sentinel whose data is a 16-byte Bin payload that, parsed as a
directory record, carries offset -16 * (n + 1), which is -16 times the total
number of entries (reals plus sentinel) of the built header. -/
theorem claim_C2 {T : Type} (ts : TagSpec T) (E : List (IndexEntry T)) (R : T)
    (hlen : 16 * (E.length + 1) ≤ 2 ^ 31) :
    ∃ sentinel buf rest inner,
      (Header.from_entries ts E R).index_entries.head? = some sentinel ∧
      sentinel.data = IndexData.Bin buf ∧ buf.length = 16 ∧
      IndexEntry.parse ts buf = .ok (rest, inner) ∧
      inner.offset = -16 * ((E.length : Int) + 1) ∧
      (Header.from_entries ts E R).index_entries.length = E.length + 1 ∧
      inner.offset = -16 * ((Header.from_entries ts E R).index_entries.length : Int) := by
  have hoffeq : i32wrap (i32wrap ((i32wrap (E.length : Int)) + 1) * (-16))
      = -16 * ((E.length : Int) + 1) := by
    rw [i32wrap_eq_self (E.length : Int) (by omega) (by push_cast; omega)]
    rw [i32wrap_eq_self ((E.length : Int) + 1) (by omega) (by push_cast; omega)]
    rw [i32wrap_eq_self _ (by push_cast; omega) (by push_cast; omega)]
    ring
  have hlength : (Header.from_entries ts E R).index_entries.length = E.length + 1 := by
    simp only [Header.from_entries, List.length_cons, layout_len]
  have hsk : skeletonize ({ tag := R, data := IndexData.Bin [], offset := i32wrap (i32wrap ((i32wrap (E.length : Int)) + 1) * (-16)), num_items := 16 } : IndexEntry T) = { tag := R, data := IndexData.Bin [], offset := i32wrap (i32wrap ((i32wrap (E.length : Int)) + 1) * (-16)), num_items := 16 } := by
    simp [skeletonize, emptyVariant]
  have hparse := parse_write_index ts
    ({ tag := R, data := IndexData.Bin [], offset := i32wrap (i32wrap ((i32wrap (E.length : Int)) + 1) * (-16)), num_items := 16 } : IndexEntry T)
    [] (by rw [hoffeq]; push_cast; omega) (by rw [hoffeq]; push_cast; omega)
    (by show (16 : Nat) < 2 ^ 32; norm_num)
  rw [List.append_nil, hsk] at hparse
  refine ⟨Header.create_region_tag ts R (i32wrap (E.length : Int))
      (i32wrap ((layoutEntries ([] : Bytes) E).1.length : Int)),
    IndexEntry.write_index ts ({ tag := R, data := IndexData.Bin [], offset := i32wrap (i32wrap ((i32wrap (E.length : Int)) + 1) * (-16)), num_items := 16 } : IndexEntry T),
    [],
    ({ tag := R, data := IndexData.Bin [], offset := i32wrap (i32wrap ((i32wrap (E.length : Int)) + 1) * (-16)), num_items := 16 } : IndexEntry T),
    rfl, rfl, write_index_length ts _, hparse, hoffeq, hlength, ?_⟩
  rw [hlength]
  simp only
  rw [hoffeq]
  push_cast
  ring

/-- C2 witness: for one real entry the sentinel's Bin payload parses to a record
with offset -32 = -16 * 2. -/
theorem claim_C2_witness :
    ∃ sentinel buf rest inner,
      (Header.from_entries sigTagSpec
          [IndexEntry.new SigTag.RPMSIGTAG_SIZE 0 (IndexData.Int32 [5])]
          SigTag.HEADER_SIGNATURES).index_entries.head? = some sentinel ∧
      sentinel.data = IndexData.Bin buf ∧ buf.length = 16 ∧
      IndexEntry.parse sigTagSpec buf = .ok (rest, inner) ∧
      inner.offset = -16 * ((1 : Int) + 1) ∧
      (Header.from_entries sigTagSpec
          [IndexEntry.new SigTag.RPMSIGTAG_SIZE 0 (IndexData.Int32 [5])]
          SigTag.HEADER_SIGNATURES).index_entries.length = 1 + 1 ∧
      inner.offset = -16 * (((Header.from_entries sigTagSpec
          [IndexEntry.new SigTag.RPMSIGTAG_SIZE 0 (IndexData.Int32 [5])]
          SigTag.HEADER_SIGNATURES).index_entries.length : Int)) :=
  claim_C2 sigTagSpec [IndexEntry.new SigTag.RPMSIGTAG_SIZE 0 (IndexData.Int32 [5])]
    SigTag.HEADER_SIGNATURES (by norm_num)

/-- C3: Header::from_entries(E, R) orders its entries as [sentinel, E...] (the real
entries keep their tag, data and item count), sets index_header.num_entries to
len(E) + 1 (the length of the entry list), sets index_header.header_size to the
store length, and gives the sentinel the offset of the store length before its
16-byte payload was appended, so the sentinel data sits last in the store. -/
theorem claim_C3 {T : Type} (ts : TagSpec T) (E : List (IndexEntry T)) (R : T)
    (h1 : E.length + 1 < 2 ^ 32) (h2 : (Header.from_entries ts E R).store.length < 2 ^ 31) :
    ∃ sentinel tailEntries pre buf,
      (Header.from_entries ts E R).index_entries = sentinel :: tailEntries ∧
      tailEntries.map (fun e => (e.tag, e.data, e.num_items))
        = E.map (fun e => (e.tag, e.data, e.num_items)) ∧
      sentinel.tag = R ∧
      (Header.from_entries ts E R).index_header.num_entries = E.length + 1 ∧
      (Header.from_entries ts E R).index_entries.length = E.length + 1 ∧
      (Header.from_entries ts E R).index_header.header_size
        = (Header.from_entries ts E R).store.length ∧
      (Header.from_entries ts E R).store = pre ++ buf ∧
      sentinel.data = IndexData.Bin buf ∧ buf.length = 16 ∧
      sentinel.offset = (pre.length : Int) := by
  have hstore : (Header.from_entries ts E R).store
      = (layoutEntries ([] : Bytes) E).1 ++ IndexEntry.write_index ts
        ({ tag := R, data := IndexData.Bin [], offset := i32wrap (i32wrap ((i32wrap (E.length : Int)) + 1) * (-16)), num_items := 16 } : IndexEntry T) := by
    simp only [Header.from_entries, Header.create_region_tag, IndexEntry.new,
      IndexData.append, IndexData.enc, padCount, List.replicate, List.nil_append,
      List.append_nil]
  have hslen := congrArg List.length hstore
  simp only [List.length_append, write_index_length] at hslen
  have hpre31 : (layoutEntries ([] : Bytes) E).1.length < 2 ^ 31 := by omega
  refine ⟨Header.create_region_tag ts R (i32wrap (E.length : Int))
      (i32wrap (((layoutEntries ([] : Bytes) E).1.length : Nat) : Int)),
    (layoutEntries ([] : Bytes) E).2,
    (layoutEntries ([] : Bytes) E).1,
    IndexEntry.write_index ts ({ tag := R, data := IndexData.Bin [], offset := i32wrap (i32wrap ((i32wrap (E.length : Int)) + 1) * (-16)), num_items := 16 } : IndexEntry T),
    rfl, layout_map E [], rfl, ?_, ?_, ?_, hstore, rfl, write_index_length ts _, ?_⟩
  · simp only [Header.from_entries, IndexHeader.new, List.length_cons, layout_len, u32wrap]
    omega
  · simp only [Header.from_entries, List.length_cons, layout_len]
  · simp only [Header.from_entries, IndexHeader.new, u32wrap]
    have : (Header.from_entries ts E R).store.length < 2 ^ 32 := by omega
    rw [Nat.mod_eq_of_lt (by simpa [Header.from_entries] using this)]
  · simp only [Header.create_region_tag, IndexEntry.new]
    exact i32wrap_eq_self _ (by push_cast; omega) (by push_cast; omega)

/-- C3 witness: the concrete build out of one Int32 entry. -/
theorem claim_C3_witness :
    ∃ sentinel tailEntries pre buf,
      (Header.from_entries sigTagSpec
          [IndexEntry.new SigTag.RPMSIGTAG_SIZE 0 (IndexData.Int32 [5])]
          SigTag.HEADER_SIGNATURES).index_entries = sentinel :: tailEntries ∧
      tailEntries.map (fun e => (e.tag, e.data, e.num_items))
        = [IndexEntry.new SigTag.RPMSIGTAG_SIZE 0 (IndexData.Int32 [5])].map
            (fun e => (e.tag, e.data, e.num_items)) ∧
      sentinel.tag = SigTag.HEADER_SIGNATURES ∧
      (Header.from_entries sigTagSpec
          [IndexEntry.new SigTag.RPMSIGTAG_SIZE 0 (IndexData.Int32 [5])]
          SigTag.HEADER_SIGNATURES).index_header.num_entries = 1 + 1 ∧
      (Header.from_entries sigTagSpec
          [IndexEntry.new SigTag.RPMSIGTAG_SIZE 0 (IndexData.Int32 [5])]
          SigTag.HEADER_SIGNATURES).index_entries.length = 1 + 1 ∧
      (Header.from_entries sigTagSpec
          [IndexEntry.new SigTag.RPMSIGTAG_SIZE 0 (IndexData.Int32 [5])]
          SigTag.HEADER_SIGNATURES).index_header.header_size
        = (Header.from_entries sigTagSpec
          [IndexEntry.new SigTag.RPMSIGTAG_SIZE 0 (IndexData.Int32 [5])]
          SigTag.HEADER_SIGNATURES).store.length ∧
      (Header.from_entries sigTagSpec
          [IndexEntry.new SigTag.RPMSIGTAG_SIZE 0 (IndexData.Int32 [5])]
          SigTag.HEADER_SIGNATURES).store = pre ++ buf ∧
      sentinel.data = IndexData.Bin buf ∧ buf.length = 16 ∧
      sentinel.offset = (pre.length : Int) :=
  claim_C3 sigTagSpec [IndexEntry.new SigTag.RPMSIGTAG_SIZE 0 (IndexData.Int32 [5])]
    SigTag.HEADER_SIGNATURES (by norm_num) (by decide)

theorem i32wrap_mod_248 (z w : Int) (hw : w = 2 ∨ w = 4 ∨ w = 8) :
    i32wrap z % w = z % w := by
  unfold i32wrap
  rcases hw with rfl | rfl | rfl <;> omega

/-- C4: in every header built by Header::from_entries, every Int16 entry has an
offset that is a multiple of 2, every Int32 entry a multiple of 4, and every Int64
entry a multiple of 8; each entry's recorded offset is the pre-append store length
plus the alignment padding, and the store bytes at that position are exactly the
entry's encoded datum, so the offset points at the first real byte of the datum
(the recorded i32 equals that position outright whenever the store fits in i32);
and IndexData::append returns the number of alignment padding bytes it prepended
before the datum. -/
theorem claim_C4 {T : Type} (ts : TagSpec T) :
    (∀ (E : List (IndexEntry T)) (R : T), ∀ e ∈ (Header.from_entries ts E R).index_entries,
      (∀ d, e.data = IndexData.Int16 d → e.offset % 2 = 0) ∧
      (∀ d, e.data = IndexData.Int32 d → e.offset % 4 = 0) ∧
      (∀ d, e.data = IndexData.Int64 d → e.offset % 8 = 0) ∧
      (∃ m pre suffix,
        m = pre + padCount e.data pre ∧
        e.offset = i32wrap ((m : Nat) : Int) ∧
        (Header.from_entries ts E R).store.drop m = e.data.enc ++ suffix ∧
        m + e.data.enc.length ≤ (Header.from_entries ts E R).store.length ∧
        ((Header.from_entries ts E R).store.length < 2 ^ 31 → e.offset = ((m : Nat) : Int)))) ∧
    (∀ (d : IndexData) (s : Bytes),
      (d.append s).2 = padCount d s.length ∧
      (d.append s).1 = s ++ List.replicate ((d.append s).2) 0 ++ d.enc ∧
      (s.length + (d.append s).2) % padAlign d = 0) := by
  constructor
  · intro E R e he
    have hstore : (Header.from_entries ts E R).store
        = (layoutEntries ([] : Bytes) E).1 ++ IndexEntry.write_index ts
          ({ tag := R, data := IndexData.Bin [], offset := i32wrap (i32wrap ((i32wrap (E.length : Int)) + 1) * (-16)), num_items := 16 } : IndexEntry T) := by
      simp only [Header.from_entries, Header.create_region_tag, IndexEntry.new,
        IndexData.append, IndexData.enc, padCount, List.replicate, List.nil_append,
        List.append_nil]
    have hslen := congrArg List.length hstore
    simp only [List.length_append, write_index_length] at hslen
    simp only [Header.from_entries, List.mem_cons] at he
    rcases he with he | he
    · subst he
      refine ⟨?_, ?_, ?_, ?_⟩
      · intro d hd
        simp only [Header.create_region_tag, IndexEntry.new] at hd
        exact absurd hd (by simp)
      · intro d hd
        simp only [Header.create_region_tag, IndexEntry.new] at hd
        exact absurd hd (by simp)
      · intro d hd
        simp only [Header.create_region_tag, IndexEntry.new] at hd
        exact absurd hd (by simp)
      · refine ⟨(layoutEntries ([] : Bytes) E).1.length,
          (layoutEntries ([] : Bytes) E).1.length, [], ?_, ?_, ?_, ?_, ?_⟩
        · simp only [Header.create_region_tag, IndexEntry.new, padCount]
          omega
        · simp only [Header.create_region_tag, IndexEntry.new]
        · simp only [Header.create_region_tag, IndexEntry.new, IndexData.enc,
            List.append_nil]
          rw [hstore]
          exact List.drop_left _ _
        · simp only [Header.create_region_tag, IndexEntry.new, IndexData.enc,
            write_index_length]
          omega
        · intro hlt
          simp only [Header.create_region_tag, IndexEntry.new]
          exact i32wrap_eq_self _ (by push_cast; omega) (by push_cast; omega)
    · obtain ⟨m, pre, suffix, hoff, hpre, halign, hbound, hdrop⟩ :=
        layout_entries_spec E [] e he
      refine ⟨?_, ?_, ?_, ⟨m, pre, suffix ++ IndexEntry.write_index ts
        ({ tag := R, data := IndexData.Bin [], offset := i32wrap (i32wrap ((i32wrap (E.length : Int)) + 1) * (-16)), num_items := 16 } : IndexEntry T), hpre, hoff, ?_, ?_, ?_⟩⟩
      · intro d hd
        rw [hoff, i32wrap_mod_248 _ 2 (by norm_num)]
        rw [hd] at halign
        simp only [padAlign] at halign
        omega
      · intro d hd
        rw [hoff, i32wrap_mod_248 _ 4 (by norm_num)]
        rw [hd] at halign
        simp only [padAlign] at halign
        omega
      · intro d hd
        rw [hoff, i32wrap_mod_248 _ 8 (by norm_num)]
        rw [hd] at halign
        simp only [padAlign] at halign
        omega
      · rw [hstore, List.drop_append_of_le_length (by omega), hdrop, List.append_assoc]
      · omega
      · intro hlt
        rw [hoff]
        exact i32wrap_eq_self _ (by push_cast; omega) (by push_cast; omega)
  · intro d s
    exact ⟨rfl, rfl, padCount_align d s.length⟩

/-- C4 witness: in the build of [Int8([1]), Int32([0x11223344])] the Int32 entry
sits at offset 4 (a multiple of 4) and the store bytes from position 4 are its
big-endian encoding; append on Int32 data over a 1-byte store reports 3 padding
bytes. -/
theorem claim_C4_witness :
    ((4 : Int) % 4 = 0) ∧
    ((IndexData.Int32 [5]).append [9]).2 = padCount (IndexData.Int32 [5]) 1 ∧
    (∃ m pre suffix,
      m = pre + padCount (IndexData.Int32 [287454020]) pre ∧
      (⟨SigTag.RPMSIGTAG_SHA1, IndexData.Int32 [287454020], 4, 1⟩ : IndexEntry SigTag).offset
        = i32wrap ((m : Nat) : Int) ∧
      (Header.from_entries sigTagSpec
          [IndexEntry.new SigTag.RPMSIGTAG_SIZE 0 (IndexData.Int8 [1]),
           IndexEntry.new SigTag.RPMSIGTAG_SHA1 0 (IndexData.Int32 [287454020])]
          SigTag.HEADER_SIGNATURES).store.drop m
        = (IndexData.Int32 [287454020]).enc ++ suffix ∧
      m + (IndexData.Int32 [287454020]).enc.length
        ≤ (Header.from_entries sigTagSpec
            [IndexEntry.new SigTag.RPMSIGTAG_SIZE 0 (IndexData.Int8 [1]),
             IndexEntry.new SigTag.RPMSIGTAG_SHA1 0 (IndexData.Int32 [287454020])]
            SigTag.HEADER_SIGNATURES).store.length ∧
      ((Header.from_entries sigTagSpec
          [IndexEntry.new SigTag.RPMSIGTAG_SIZE 0 (IndexData.Int8 [1]),
           IndexEntry.new SigTag.RPMSIGTAG_SHA1 0 (IndexData.Int32 [287454020])]
          SigTag.HEADER_SIGNATURES).store.length < 2 ^ 31 →
        (⟨SigTag.RPMSIGTAG_SHA1, IndexData.Int32 [287454020], 4, 1⟩ : IndexEntry SigTag).offset
          = ((m : Nat) : Int))) := by
  refine ⟨?_, ?_, ?_⟩
  · exact ((claim_C4 sigTagSpec).1
      [IndexEntry.new SigTag.RPMSIGTAG_SIZE 0 (IndexData.Int8 [1]),
       IndexEntry.new SigTag.RPMSIGTAG_SHA1 0 (IndexData.Int32 [287454020])]
      SigTag.HEADER_SIGNATURES
      ⟨SigTag.RPMSIGTAG_SHA1, IndexData.Int32 [287454020], 4, 1⟩
      (by decide)).2.1 [287454020] rfl
  · exact ((claim_C4 sigTagSpec).2 (IndexData.Int32 [5]) [9]).1
  · exact ((claim_C4 sigTagSpec).1
      [IndexEntry.new SigTag.RPMSIGTAG_SIZE 0 (IndexData.Int8 [1]),
       IndexEntry.new SigTag.RPMSIGTAG_SHA1 0 (IndexData.Int32 [287454020])]
      SigTag.HEADER_SIGNATURES
      ⟨SigTag.RPMSIGTAG_SHA1, IndexData.Int32 [287454020], 4, 1⟩
      (by decide)).2.2.2

theorem fileNamesFold_ok (dirs : List Bytes) (n : Nat) :
    ∀ (l : List (Bytes × Int)) (acc : List Bytes),
      (∀ p ∈ l, ((p.2 % (2 : Int) ^ 64).toNat) < dirs.length) →
      fileNamesFold dirs n l acc
        = .ok (acc ++ l.map (fun p =>
            pathJoin (dirs.getD ((p.2 % (2 : Int) ^ 64).toNat) []) p.1)) := by
  intro l
  induction l with
  | nil =>
    intro acc h
    simp [fileNamesFold]
  | cons p t ih =>
    intro acc h
    obtain ⟨base, di⟩ := p
    have hp := h (base, di) (List.mem_cons_self _ _)
    simp only at hp
    simp only [fileNamesFold]
    cases hgq : dirs.get? ((di % (2 : Int) ^ 64).toNat) with
    | none =>
      have := List.get?_eq_none.mp hgq
      omega
    | some dir =>
      show fileNamesFold dirs n t (acc ++ [pathJoin dir base])
          = Except.ok (acc ++ List.map
              (fun p => pathJoin (dirs.getD ((p.2 % (2 : Int) ^ 64).toNat) []) p.1)
              ((base, di) :: t))
      rw [ih (acc ++ [pathJoin dir base]) (fun q hq => h q (List.mem_cons_of_mem _ hq))]
      simp only [List.map_cons, List.append_assoc, List.singleton_append]
      congr 2
      have hgq2 : dirs[(di % (2 : Int) ^ 64).toNat]? = some dir := by
        rw [← List.get?_eq_getElem?]
        exact hgq
      norm_num at hgq2
      simp [List.getD, hgq2]

theorem fileNamesFold_err (dirs : List Bytes) (n : Nat) :
    ∀ (l : List (Bytes × Int)) (acc : List Bytes) (i : Nat), i < l.length →
      (∀ j, j < i → ((l.getD j ([], 0)).2 % (2 : Int) ^ 64).toNat < dirs.length) →
      ¬ (((l.getD i ([], 0)).2 % (2 : Int) ^ 64).toNat < dirs.length) →
      fileNamesFold dirs n l acc
        = .error (.InvalidTagIndex (IndexTag.toDisplay .RPMTAG_DIRINDEXES)
            (((l.getD i ([], 0)).2 % (2 : Int) ^ 32).toNat) (u32wrap n)) := by
  intro l
  induction l with
  | nil =>
    intro acc i hi
    simp at hi
  | cons p t ih =>
    intro acc i hi hlt hnot
    obtain ⟨base, di⟩ := p
    cases i with
    | zero =>
      simp only [List.getD_cons_zero] at hnot ⊢
      simp only [fileNamesFold]
      cases hgq : dirs.get? ((di % (2 : Int) ^ 64).toNat) with
      | none => rfl
      | some dir =>
        obtain ⟨hl, -⟩ := List.get?_eq_some.mp hgq
        exact absurd hl hnot
    | succ k =>
      have h0 := hlt 0 (by omega)
      simp only [List.getD_cons_zero] at h0
      simp only [List.getD_cons_succ] at hnot ⊢
      simp only [fileNamesFold]
      cases hgq : dirs.get? ((di % (2 : Int) ^ 64).toNat) with
      | none =>
        have := List.get?_eq_none.mp hgq
        omega
      | some dir =>
        show fileNamesFold dirs n t (acc ++ [pathJoin dir base]) = _
        exact ih (acc ++ [pathJoin dir base]) k (by simpa using hi)
          (fun j hj => by
            have := hlt (j + 1) (by omega)
            simpa [List.getD_cons_succ] using this)
          hnot

/-- C8: for a main header whose BASENAMES entry is a string array, DIRINDEXES an
Int32 array, and DIRNAMES a string array: when every directory index (below the
length of the base/index zip) indexes within DIRNAMES, get_file_names returns the
list whose i-th element is DIRNAMES[DIRINDEXES[i]] path-joined with BASENAMES[i];
when the first out-of-range index is hit, it fails with InvalidTagIndex naming
RPMTAG_DIRINDEXES, that index value (as u32), and len(DIRNAMES) (as u32). -/
theorem claim_C8 (h : Header IndexTag) (base : List Bytes) (biject : List Int)
    (dirs : List Bytes)
    (hbase : Header.get_entry_string_array_data indexTagSpec h .RPMTAG_BASENAMES = .ok base)
    (hbj : Header.get_entry_i32_array_data indexTagSpec h .RPMTAG_DIRINDEXES = .ok biject)
    (hdirs : Header.get_entry_string_array_data indexTagSpec h .RPMTAG_DIRNAMES = .ok dirs) :
    ((∀ p ∈ base.zip biject, ((p.2 % (2 : Int) ^ 64).toNat) < dirs.length) →
      Header.get_file_names h = .ok ((base.zip biject).map
        (fun p => pathJoin (dirs.getD ((p.2 % (2 : Int) ^ 64).toNat) []) p.1))) ∧
    (∀ i : Nat, i < (base.zip biject).length →
      (∀ j, j < i → (((base.zip biject).getD j ([], 0)).2 % (2 : Int) ^ 64).toNat
          < dirs.length) →
      ¬ ((((base.zip biject).getD i ([], 0)).2 % (2 : Int) ^ 64).toNat < dirs.length) →
      Header.get_file_names h = .error (.InvalidTagIndex "RPMTAG_DIRINDEXES"
        ((((base.zip biject).getD i ([], 0)).2 % (2 : Int) ^ 32).toNat)
        (u32wrap dirs.length))) := by
  constructor
  · intro hin
    unfold Header.get_file_names
    rw [hbase, hbj, hdirs]
    simp only
    rw [fileNamesFold_ok dirs dirs.length (base.zip biject) [] hin]
    simp
  · intro i hi hjs hnot
    unfold Header.get_file_names
    rw [hbase, hbj, hdirs]
    simp only
    exact fileNamesFold_err dirs dirs.length (base.zip biject) [] i hi hjs hnot

/-- C8 witness: BASENAMES=["a","b"], DIRINDEXES=[0,1], DIRNAMES=["/x/","/y/"]
join to ["/x/a","/y/b"] (as bytes; 47 is the slash). -/
theorem claim_C8_witness :
    Header.get_file_names
      { index_header := IndexHeader.new 0 0,
        index_entries := [IndexEntry.new .RPMTAG_BASENAMES 0 (.StringArray [[97], [98]]),
          IndexEntry.new .RPMTAG_DIRINDEXES 0 (.Int32 [0, 1]),
          IndexEntry.new .RPMTAG_DIRNAMES 0 (.StringArray [[47, 120, 47], [47, 121, 47]])],
        store := [] }
      = .ok [[47, 120, 47, 97], [47, 121, 47, 98]] := by
  have hc := (claim_C8
    { index_header := IndexHeader.new 0 0,
      index_entries := [IndexEntry.new .RPMTAG_BASENAMES 0 (.StringArray [[97], [98]]),
        IndexEntry.new .RPMTAG_DIRINDEXES 0 (.Int32 [0, 1]),
        IndexEntry.new .RPMTAG_DIRNAMES 0 (.StringArray [[47, 120, 47], [47, 121, 47]])],
      store := [] }
    [[97], [98]] [0, 1] [[47, 120, 47], [47, 121, 47]]
    (by decide) (by decide) (by decide)).1 (by decide)
  exact hc

/-- C1 counterexample: the claim fails as stated. For the header built by
Header::from_entries from a single I18NString entry with elements "a","b",
parsing the written bytes does not give back the header (the second element
decodes as the empty string, because the I18NString fill loop does not advance
past the NUL terminator). -/
theorem claim_C1_counterexample :
    parsedHeader (Header.parse sigTagSpec (Header.write sigTagSpec
        (Header.from_entries sigTagSpec
          [IndexEntry.new SigTag.RPMSIGTAG_SHA1 0 (IndexData.I18NString [[97], [98]])]
          SigTag.HEADER_SIGNATURES)))
      ≠ some (Header.from_entries sigTagSpec
          [IndexEntry.new SigTag.RPMSIGTAG_SHA1 0 (IndexData.I18NString [[97], [98]])]
          SigTag.HEADER_SIGNATURES) := by
  decide

/-- C1 (amended): write-then-parse is the identity (byte-exactly, whence also
write(parse(write(H))) = write(H)) for (a) headers built by Header::from_entries
from entries whose data round-trips — machine integers in range, num_items
matching the data, strings NUL-free valid UTF-8, and I18NString entries with all
elements after the first empty — when directory and store fit in an i32 offset
space, and (b) every header produced by a successful Header::parse of a byte
string. -/
theorem claim_C1_amended {T : Type} (ts : TagSpec T) :
    (∀ (E : List (IndexEntry T)) (R : T),
      (∀ e ∈ E, entryWf e) →
      (Header.from_entries ts E R).store.length + (E.length + 1) * 16 < 2 ^ 31 →
      Header.parse ts (Header.write ts (Header.from_entries ts E R))
        = .ok (Header.from_entries ts E R, [])) ∧
    (∀ (B : Bytes) (H : Header T) (r : Bytes), (∀ b ∈ B, b < 256) →
      Header.parse ts B = .ok (H, r) →
      Header.parse ts (Header.write ts H) = .ok (H, [])) := by
  constructor
  · intro E R hwf hbound
    exact parse_write_of_wf ts _ (from_entries_wf ts E R hwf hbound)
  · intro B H r hb hp
    exact parse_write_of_wf ts H (parse_inv ts B H r hb hp).1

/-- C1 witness: the round trip holds at a concrete built header. -/
theorem claim_C1_amended_witness :
    Header.parse sigTagSpec (Header.write sigTagSpec (Header.from_entries sigTagSpec
        [IndexEntry.new SigTag.RPMSIGTAG_SIZE 0 (IndexData.Int32 [209348])]
        SigTag.HEADER_SIGNATURES))
      = .ok (Header.from_entries sigTagSpec
          [IndexEntry.new SigTag.RPMSIGTAG_SIZE 0 (IndexData.Int32 [209348])]
          SigTag.HEADER_SIGNATURES, []) := by
  refine (claim_C1_amended sigTagSpec).1
    [IndexEntry.new SigTag.RPMSIGTAG_SIZE 0 (IndexData.Int32 [209348])]
    SigTag.HEADER_SIGNATURES ?_ (by decide)
  intro e he
  simp only [List.mem_singleton] at he
  subst he
  refine ⟨⟨by norm_num, ?_⟩, rfl⟩
  intro v hv
  simp only [List.mem_singleton] at hv
  subst hv
  norm_num

/-- C6 counterexample: the claim fails as stated. The 16-byte signature region
with a nonzero reserved byte (byte 4 = 9) has total length a multiple of 8,
parses successfully, and has (trivially all-zero) trailing padding, yet
write_signature of the parsed header zeroes the reserved bytes and so differs
from the input. -/
theorem claim_C6_counterexample :
    ([0x8E, 0xAD, 0xE8, 1, 9, 0, 0, 0, 0, 0, 0, 0, 0, 0, 0, 0] : Bytes).length % 8 = 0 ∧
    Header.parse_signature sigTagSpec
        [0x8E, 0xAD, 0xE8, 1, 9, 0, 0, 0, 0, 0, 0, 0, 0, 0, 0, 0]
      = .ok ({ index_header := { magic := [0x8E, 0xAD, 0xE8], version := 1, num_entries := 0, header_size := 0 }, index_entries := [], store := [] }, []) ∧
    Header.write_signature sigTagSpec
        { index_header := { magic := [0x8E, 0xAD, 0xE8], version := 1, num_entries := 0, header_size := 0 }, index_entries := [], store := [] }
      ≠ [0x8E, 0xAD, 0xE8, 1, 9, 0, 0, 0, 0, 0, 0, 0, 0, 0, 0, 0] := by
  refine ⟨by norm_num, by decide, by decide⟩

/-- C6 (amended): write_signature appends `8 - (header_size % 8)` zero bytes after
the written header exactly when header_size % 8 is nonzero; and
write_signature ∘ parse_signature is the identity on byte strings whose length is
a multiple of 8, whose header portion parses, whose reserved bytes (bytes 4..8)
are zero, and whose part after the header is shorter than 8 bytes and all zero
(it is exactly the discarded padding). -/
theorem claim_C6_amended {T : Type} (ts : TagSpec T) :
    (∀ h : Header T, Header.write_signature ts h = Header.write ts h ++
        (if h.index_header.header_size % 8 > 0 then
          List.replicate (8 - h.index_header.header_size % 8) 0 else [])) ∧
    (∀ (B : Bytes) (H : Header T) (rest : Bytes),
      (∀ b ∈ B, b < 256) → (B.drop 4).take 4 = [0, 0, 0, 0] →
      Header.parse ts B = .ok (H, rest) → (∀ b ∈ rest, b = 0) →
      B.length % 8 = 0 → rest.length < 8 →
      Header.parse_signature ts B = .ok (H, []) ∧ Header.write_signature ts H = B) := by
  constructor
  · intro h
    rfl
  · intro B H rest hb hres hp hzero hlen8 hrlt
    exact signature_roundtrip ts B H rest hb hres hp hzero hlen8 hrlt

/-- C6 witness: a concrete signature region whose store needs 4 pad bytes round
trips through parse_signature and write_signature. -/
theorem claim_C6_amended_witness :
    Header.parse_signature sigTagSpec
        [0x8E, 0xAD, 0xE8, 1, 0, 0, 0, 0, 0, 0, 0, 1, 0, 0, 0, 4,
         0, 0, 1, 0x0D, 0, 0, 0, 7, 0, 0, 0, 0, 0, 0, 0, 4,
         1, 2, 3, 4, 0, 0, 0, 0]
      = .ok ({ index_header := { magic := [0x8E, 0xAD, 0xE8], version := 1, num_entries := 1, header_size := 4 }, index_entries := [⟨SigTag.RPMSIGTAG_SHA1, IndexData.Bin [1, 2, 3, 4], 0, 4⟩], store := [1, 2, 3, 4] }, []) ∧
    Header.write_signature sigTagSpec
        { index_header := { magic := [0x8E, 0xAD, 0xE8], version := 1, num_entries := 1, header_size := 4 }, index_entries := [⟨SigTag.RPMSIGTAG_SHA1, IndexData.Bin [1, 2, 3, 4], 0, 4⟩], store := [1, 2, 3, 4] }
      = [0x8E, 0xAD, 0xE8, 1, 0, 0, 0, 0, 0, 0, 0, 1, 0, 0, 0, 4,
         0, 0, 1, 0x0D, 0, 0, 0, 7, 0, 0, 0, 0, 0, 0, 0, 4,
         1, 2, 3, 4, 0, 0, 0, 0] :=
  (claim_C6_amended sigTagSpec).2
    [0x8E, 0xAD, 0xE8, 1, 0, 0, 0, 0, 0, 0, 0, 1, 0, 0, 0, 4,
     0, 0, 1, 0x0D, 0, 0, 0, 7, 0, 0, 0, 0, 0, 0, 0, 4,
     1, 2, 3, 4, 0, 0, 0, 0]
    { index_header := { magic := [0x8E, 0xAD, 0xE8], version := 1, num_entries := 1, header_size := 4 }, index_entries := [⟨SigTag.RPMSIGTAG_SHA1, IndexData.Bin [1, 2, 3, 4], 0, 4⟩], store := [1, 2, 3, 4] }
    [0, 0, 0, 0]
    (by decide) (by decide) (by decide) (by decide) (by decide) (by decide)
